import Mathlib

set_option autoImplicit false

/-!
Verification development for the streaming inference orchestration engine of
the t3-chat-clone backend.

The definitions below are a shallow embedding of:
  * `OpenRouterClient.chat_completion_stream` (backend/app/infrastructure/openrouter.py):
    the SSE frame decoder (buffering, line splitting, `data: ` framing,
    `[DONE]` sentinel, malformed-frame skipping) and the HTTP-status error
    mapping of its exception handler;
  * `OpenRouterService.stream_chat_completion` (backend/app/services/openrouter_service.py):
    the delta handler, the per-round tool-call accumulator, and the
    sequential tool-execution loop over follow-up rounds;
  * `ToolService.execute_tool_call` (backend/app/services/tool_service.py):
    tool-name resolution against the known MCP clients and the
    catch-all error conversion.

JSON parsing of frame payloads and of tool-argument strings is abstracted as
an explicit `parse`-function parameter (`List Char → Option Chunk` at the
frame level, `String → Option α` at the argument level); the MCP clients
behind the tool capability are abstracted as an `McpWorld`.  Everything else
is translated branch by branch from the Python source.
-/

/-! ## String helpers

Python string operations are modelled on `String.data` (`List Char`) so that
all definitions evaluate by kernel reduction. -/

/-- Concatenation of a list of strings (Python `''.join` / repeated `+=`). -/
def joinStr (l : List String) : String := ⟨(l.map (·.data)).flatten⟩

/-- Test whether `hay` starts with `pat` (Python `str.startswith`). -/
def listStarts : List Char → List Char → Bool
  | _, [] => true
  | [], _ :: _ => false
  | h :: t, p :: q => h = p && listStarts t q

/-- String-level `startswith`. -/
def strStarts (s pat : String) : Bool := listStarts s.data pat.data

/-- Python `c in s` for a single character. -/
def strContainsChar (s : String) (c : Char) : Bool := s.data.any (· = c)

/-- Python `s[n:]` (code points). -/
def strDrop (s : String) (n : Nat) : String := ⟨s.data.drop n⟩

/-- Length in code points, matching Python `len` on the names involved here. -/
def strLen (s : String) : Nat := s.data.length

/-- Test whether `pat` occurs as a contiguous sublist of `hay`
    (Python `needle in hay`). -/
def listHasSub (hay pat : List Char) : Bool :=
  match hay with
  | [] => decide (pat = [])
  | _ :: t => listStarts hay pat || listHasSub t pat

/-- Python `needle in hay` on strings. -/
def strHasSub (hay pat : String) : Bool := listHasSub hay.data pat.data

/-- ASCII lower-casing of one character (the detail strings compared against
    `"credits"` in the source are ASCII). -/
def lowerChar (c : Char) : Char :=
  if 'A' ≤ c ∧ c ≤ 'Z' then Char.ofNat (c.toNat + 32) else c

/-- Python `str.lower`, restricted to ASCII as used by the source. -/
def lowerStr (s : String) : String := ⟨s.data.map lowerChar⟩

/-- Python whitespace characters relevant to `str.strip` on SSE lines. -/
def isPyWS (c : Char) : Bool :=
  c = ' ' || c = '\t' || c = '\n' || c = '\r' || c = '\x0b' || c = '\x0c'

/-- Python `str.strip` on a character list. -/
def stripWS (l : List Char) : List Char :=
  ((l.dropWhile isPyWS).reverse.dropWhile isPyWS).reverse

/-! ## Frame decoder

Model of the streaming-response loop of `chat_completion_stream`
(openrouter.py lines 183-207): text chunks are appended to a buffer, complete
lines (terminated by `'\n'`) are split off, stripped, and classified:
`data: [DONE]` ends the stream (Python `return`), other `data: ` lines are
JSON-parsed (malformed ones skipped), and every other line — blank lines,
`event: ` lines, and anything else — falls through without output. -/

variable {J α : Type}

/-- Action taken for one complete line. -/
inductive LineAct (J : Type) where
  | halt
  | skip
  | yieldJ (j : J)
deriving DecidableEq

/-- Characters of the `"data: "` framing marker. -/
def dataTag : List Char := ['d', 'a', 't', 'a', ':', ' ']

/-- Characters of the `"[DONE]"` terminal sentinel. -/
def doneTag : List Char := ['[', 'D', 'O', 'N', 'E', ']']

/-- Classification of one complete line, openrouter.py lines 190-207.
    `parse` abstracts `json.loads` into the chunk type `J`.  The source's
    `elif line.startswith("event: ")`, `elif line == ""`, and the implicit
    fall-through for any other line all perform no action, so they collapse
    into `skip`. -/
def procLine (parse : List Char → Option J) (line : List Char) : LineAct J :=
  let s := stripWS line
  if s.take 6 = dataTag then
    let d := s.drop 6
    if stripWS d = doneTag then .halt
    else
      match parse d with
      | some j => .yieldJ j
      | none => .skip
  else .skip

/-- Process a sequence of complete lines; the Bool records whether the
    `[DONE]` sentinel was reached (after which nothing further is read). -/
def processLinesH (parse : List Char → Option J) : List (List Char) → Bool × List J
  | [] => (false, [])
  | l :: ls =>
    match procLine parse l with
    | .halt => (true, [])
    | .skip => processLinesH parse ls
    | .yieldJ j =>
      let p := processLinesH parse ls
      (p.1, j :: p.2)

/-- One character of line extraction: a newline closes the current line,
    any other character extends the first line (or the remainder when no
    newline follows). -/
def lineStep (c : Char) (p : List (List Char) × List Char) :
    List (List Char) × List Char :=
  if c = '\n' then ([] :: p.1, p.2)
  else
    match p.1 with
    | [] => ([], c :: p.2)
    | l :: ls => ((c :: l) :: ls, p.2)

/-- Split off the complete (newline-terminated) lines of a buffer, returning
    them with the unterminated remainder (the source's
    `while '\n' in buffer: line, buffer = buffer.split('\n', 1)`). -/
def extractLines : List Char → List (List Char) × List Char
  | [] => ([], [])
  | c :: cs => lineStep c (extractLines cs)

/-- Decoder state: pending buffer plus whether `[DONE]` was seen. -/
structure DecSt where
  buf : List Char
  halted : Bool
deriving DecidableEq

/-- Feed one text chunk to the decoder (one iteration of
    `async for text_chunk in response.aiter_text(...)`). -/
def feedChunk (parse : List Char → Option J) (s : DecSt) (chunk : List Char) :
    DecSt × List J :=
  if s.halted then (s, [])
  else
    let p := extractLines (s.buf ++ chunk)
    let q := processLinesH parse p.1
    (⟨p.2, q.1⟩, q.2)

/-- Feed a whole list of text chunks; an unterminated final line is never
    emitted (the Python loop ends with it still in `buffer`). -/
def feedAll (parse : List Char → Option J) (s : DecSt) : List (List Char) → List J
  | [] => []
  | c :: cs =>
    let p := feedChunk parse s c
    p.2 ++ feedAll parse p.1 cs

/-- Decode a transport-chunked text stream into parsed frame payloads. -/
def decodeAll (parse : List Char → Option J) (chunks : List (List Char)) : List J :=
  feedAll parse ⟨[], false⟩ chunks

/-- Concatenation of a list of character lists. -/
def listJoin (l : List (List Char)) : List Char := l.flatten

/-! ### Decoder lemmas -/

theorem extractLines_noNL (l : List Char) (h : '\n' ∉ l) : extractLines l = ([], l) := by
  induction l with
  | nil => rfl
  | cons c cs ih =>
    have hc : ¬ c = '\n' := fun hx => h (hx ▸ List.mem_cons_self c cs)
    have hcs : '\n' ∉ cs := fun hx => h (List.mem_cons_of_mem c hx)
    simp [extractLines, ih hcs, lineStep, hc]

theorem extractLines_rest_noNL (l : List Char) : '\n' ∉ (extractLines l).2 := by
  induction l with
  | nil => simp [extractLines]
  | cons c cs ih =>
    by_cases hc : c = '\n'
    · simp [extractLines, lineStep, hc, ih]
    · cases hp : (extractLines cs).1 with
      | nil =>
        simp only [extractLines, lineStep, hc, if_false, hp, List.mem_cons]
        rintro (h | h)
        · exact hc h.symm
        · exact ih h
      | cons a as => simp [extractLines, lineStep, hc, hp, ih]

theorem extractLines_append (a b : List Char) :
    extractLines (a ++ b) =
      ((extractLines a).1 ++ (extractLines ((extractLines a).2 ++ b)).1,
        (extractLines ((extractLines a).2 ++ b)).2) := by
  induction a with
  | nil => simp [extractLines]
  | cons c cs ih =>
    show lineStep c (extractLines (cs ++ b)) = _
    rw [ih]
    by_cases hc : c = '\n'
    · simp [extractLines, lineStep, hc]
    · cases hp : (extractLines cs).1 with
      | nil =>
        have h2 : extractLines (c :: cs) = ([], c :: (extractLines cs).2) := by
          simp [extractLines, lineStep, hc, hp]
        rw [h2]
        simp only [hp, List.nil_append, lineStep, hc, if_false]
        show _ = lineStep c (extractLines ((extractLines cs).2 ++ b))
        simp only [lineStep, hc, if_false]
      | cons l ls =>
        have h2 : extractLines (c :: cs) = ((c :: l) :: ls, (extractLines cs).2) := by
          simp [extractLines, lineStep, hc, hp]
        rw [h2]
        simp [hp, lineStep, hc]

theorem processLinesH_append (parse : List Char → Option J) (l1 l2 : List (List Char)) :
    processLinesH parse (l1 ++ l2) =
      (if (processLinesH parse l1).1 then processLinesH parse l1
       else ((processLinesH parse l2).1,
         (processLinesH parse l1).2 ++ (processLinesH parse l2).2)) := by
  induction l1 with
  | nil => simp [processLinesH]
  | cons l ls ih =>
    cases h : procLine parse l with
    | halt => simp [processLinesH, h]
    | skip => simp [processLinesH, h, ih]
    | yieldJ j =>
      cases hh : (processLinesH parse ls).1 <;>
        simp [processLinesH, h, ih, hh]

theorem feedAll_halted (parse : List Char → Option J) (b : List Char)
    (cs : List (List Char)) : feedAll parse ⟨b, true⟩ cs = [] := by
  induction cs with
  | nil => rfl
  | cons c cs ih => simp [feedAll, feedChunk, ih]

/-- Incremental decoding from a newline-free buffer equals batch processing of
    the complete lines of the concatenated text. -/
theorem feedAll_eq_batch (parse : List Char → Option J) (b : List Char)
    (hb : '\n' ∉ b) (cs : List (List Char)) :
    feedAll parse ⟨b, false⟩ cs =
      (processLinesH parse (extractLines (b ++ listJoin cs)).1).2 := by
  induction cs generalizing b with
  | nil =>
    simp [feedAll, listJoin, extractLines_noNL b hb, processLinesH]
  | cons c cs ih =>
    have hrest : '\n' ∉ (extractLines (b ++ c)).2 := extractLines_rest_noNL _
    have hassoc : b ++ listJoin (c :: cs) = (b ++ c) ++ listJoin cs := by
      simp [listJoin]
    rw [hassoc, extractLines_append (b ++ c) (listJoin cs),
      processLinesH_append]
    cases hh : (processLinesH parse (extractLines (b ++ c)).1).1
    · simp only [feedAll, feedChunk, Bool.false_eq_true, if_false, hh]
      rw [ih _ hrest]
    · simp only [feedAll, feedChunk, Bool.false_eq_true, if_false, hh]
      rw [feedAll_halted]
      simp [hh]

/-- Decoding is a function of the concatenated text alone: any split of the
    transport text into reads yields the same payload sequence. -/
theorem decodeAll_eq_concat (parse : List Char → Option J) (chunks : List (List Char)) :
    decodeAll parse chunks = decodeAll parse [listJoin chunks] := by
  have h1 := feedAll_eq_batch parse [] (by simp) chunks
  have h2 := feedAll_eq_batch parse [] (by simp) [listJoin chunks]
  rw [decodeAll, h1, decodeAll, h2]
  simp [listJoin]

/-! ## Delta model

Shapes read by `OpenRouterService.stream_chat_completion`
(openrouter_service.py lines 241-406).  A chunk is the JSON object yielded by
the frame decoder; the engine reads `chunk["choices"][0]`, its `delta`
(fields `tool_calls`, `reasoning`, `content`) and its `finish_reason`.
Optional string fields are `Option String`; Python truthiness treats both an
absent field and an empty string as false. -/

/-- Truthiness of an optional string field (Python `if delta.get(k):`). -/
def optTruthy : Option String → Bool
  | none => false
  | some s => s ≠ ""

/-- One element of `delta["tool_calls"]`: `index` (default 0 via
    `.get("index", 0)`), and the optional `id`, `function.name`,
    `function.arguments` fragments.  An absent `function` object behaves
    exactly like one with neither field, so it is collapsed into
    `none` fragments. -/
structure ToolCallDelta where
  index : Nat
  idFrag : Option String
  nameFrag : Option String
  argsFrag : Option String
deriving DecidableEq

/-- Fields of `choice["delta"]` used by the engine; an absent or empty
    `tool_calls` array are both non-truthy, so absence is the empty list. -/
structure Delta where
  toolCalls : List ToolCallDelta
  reasoning : Option String
  content : Option String
deriving DecidableEq

/-- One element of `chunk["choices"]`. -/
structure Choice where
  delta : Delta
  finishReason : Option String
deriving DecidableEq

/-- One decoded frame payload (`chunk_data`). -/
structure Chunk where
  choices : List Choice
deriving DecidableEq

/-! ## Tool-call accumulator

Model of `accumulated_tool_calls`: a Python `dict` keyed by index.  Python
dicts iterate in insertion order, so the accumulator is an association list
to which new indices are appended at the end (openrouter_service.py lines
247-270 and the identical follow-up copy at lines 356-379). -/

/-- One accumulated entry: the growing `id`, `function.name` and
    `function.arguments` strings (the constant `"type": "function"` field is
    omitted). -/
structure AccEntry where
  id : String
  name : String
  args : String
deriving DecidableEq

/-- Association list of accumulated tool calls in dict insertion order. -/
abbrev AccList : Type := List (Nat × AccEntry)

/-- Lookup by index (`index in accumulated_tool_calls`). -/
def accFind (acc : AccList) (i : Nat) : Option AccEntry :=
  (List.find? (fun p => p.1 = i) acc).map (·.2)

/-- Append one fragment to a growing string under the source's truthiness
    guard (`if tool_call_delta.get("id"): ... += ...`). -/
def appFrag (cur : String) (frag : Option String) : String :=
  match frag with
  | none => cur
  | some s => if s = "" then cur else cur ++ s

/-- Apply one tool-call delta's fragments to an entry. -/
def entryAppend (e : AccEntry) (d : ToolCallDelta) : AccEntry :=
  { id := appFrag e.id d.idFrag
    name := appFrag e.name d.nameFrag
    args := appFrag e.args d.argsFrag }

/-- The empty entry installed when an index is first seen. -/
def emptyEntry : AccEntry := ⟨"", "", ""⟩

/-- Process one tool-call delta: initialize the entry at its index if absent
    (appended at the end, in dict insertion order), then append the
    fragments. -/
def accStep (acc : AccList) (d : ToolCallDelta) : AccList :=
  match accFind acc d.index with
  | some _ =>
    List.map (fun p => if p.1 = d.index then (p.1, entryAppend p.2 d) else p) acc
  | none => acc ++ [(d.index, entryAppend emptyEntry d)]

/-- Accumulate a list of tool-call deltas in arrival order. -/
def accumulate (ds : List ToolCallDelta) : AccList :=
  List.foldl accStep [] ds

/-! ## Engine events and transcript messages -/

/-- Payload of a `tool_error` event; the three constructors mirror the three
    distinct `data` dictionaries the source emits:
    `incomplete i` for `{'error': 'Incomplete tool call at index i', 'tool_call': ...}`,
    `badJson s` for `{'error': 'Invalid tool arguments JSON: ...', 'arguments': s}`,
    and `execFailed msg name` for `{'error': str(e), 'tool_name': name}`. -/
inductive ToolErr where
  | incomplete (index : Nat)
  | badJson (argsText : String)
  | execFailed (msg : String) (toolName : String)
deriving DecidableEq

/-- Client-facing events of the engine, over the abstract type `α` of parsed
    JSON argument values.  `done` models normal termination of the generator
    (`return` or falling off the end) and `error msg` models a `ValueError`
    propagating out of it; all other constructors are the
    `data: {'type': ..., 'data': ...}` lines the generator yields. -/
inductive Ev (α : Type) where
  | toolCallProgress (accumulatedCalls : Nat)
  | reasoning (text : String)
  | content (text : String)
  | toolError (e : ToolErr)
  | toolCall (name : String) (argsVal : α)
  | toolResult (name : String) (result : String)
  | done
  | error (msg : String)
deriving DecidableEq

/-- Transcript messages appended during the tool loop: the initial context
    messages, the synthetic `{"role": "assistant", "tool_calls": [...]}`
    message, and the `{"role": "tool", "tool_call_id": ..., "content": ...}`
    result message. -/
inductive Msg where
  | plain (role : String) (content : String)
  | assistantToolCalls (call : AccEntry)
  | toolResultMsg (callId : String) (content : String)
deriving DecidableEq

/-! ## Delta handler and round streaming -/

/-- Handling of one decoded chunk (openrouter_service.py lines 241-283 and
    the identical follow-up copy at lines 350-390): the delta fields are
    examined by an `if / elif / elif` chain (tool_calls, then reasoning, then
    content), and the `finish_reason` is read independently of it.  Returns
    the updated accumulator, the yielded events, and the truthy finish
    reason, if any. -/
def procChunk (acc : AccList) (ch : Chunk) :
    AccList × List (Ev α) × Option String :=
  match ch.choices with
  | [] => (acc, [], none)
  | choice :: _ =>
    let delta := choice.delta
    let fin := if optTruthy choice.finishReason then choice.finishReason else none
    if delta.toolCalls ≠ [] then
      let acc' := List.foldl accStep acc delta.toolCalls
      (acc', [.toolCallProgress acc'.length], fin)
    else if optTruthy delta.reasoning then
      (acc, [.reasoning (delta.reasoning.getD "")], fin)
    else if optTruthy delta.content then
      (acc, [.content (delta.content.getD "")], fin)
    else
      (acc, [], fin)

/-- Stream one upstream round: process chunks in order, stopping at the first
    chunk whose `finish_reason` is truthy (the source `return`s or `break`s
    inside that iteration, so later chunks are never read). -/
def streamRound (acc : AccList) : List Chunk → AccList × List (Ev α) × Option String
  | [] => (acc, [], none)
  | c :: rest =>
    let p := procChunk acc c
    match p.2.2 with
    | some r => (p.1, p.2.1, some r)
    | none =>
      let q := streamRound p.1 rest
      (q.1, p.2.1 ++ q.2.1, q.2.2)

/-! ## Tool execution and the round loop -/

/-- Execution of one accumulated entry (openrouter_service.py lines 294-333):
    validate completeness, parse the arguments (`argParse` abstracts
    `json.loads`), emit the `tool_call` event, invoke the capability `exec`
    (`.error` models a raised exception, caught by the `except` branch), emit
    `tool_result` and the two transcript messages on success. -/
def execEntry (argParse : String → Option α) (exec : String → α → Except String String)
    (p : Nat × AccEntry) : List (Ev α) × List Msg :=
  let e := p.2
  if e.name = "" ∨ e.args = "" then
    ([.toolError (.incomplete p.1)], [])
  else
    match argParse e.args with
    | none => ([.toolError (.badJson e.args)], [])
    | some a =>
      match exec e.name a with
      | .ok r =>
        ([.toolCall e.name a, .toolResult e.name r],
          [.assistantToolCalls e, .toolResultMsg e.id r])
      | .error m => ([.toolCall e.name a, .toolError (.execFailed m e.name)], [])

/-- Execute all accumulated calls of one round, in accumulator (insertion)
    order, sequentially. -/
def execRoundCalls (argParse : String → Option α)
    (exec : String → α → Except String String) :
    AccList → List (Ev α) × List Msg
  | [] => ([], [])
  | p :: rest =>
    let r1 := execEntry argParse exec p
    let r2 := execRoundCalls argParse exec rest
    (r1.1 ++ r2.1, r1.2 ++ r2.2)

/-- Outcome of one upstream streaming call: the chunk list it yields, or the
    message of the `ValueError` it raises (transport failure). -/
abbrev RoundOutcome : Type := Except String (List Chunk)

/-- The `while accumulated_tool_calls:` loop (openrouter_service.py lines
    290-402): execute the pending calls, extend the transcript, clear the
    accumulator, stream the next scripted round, and repeat until a round
    ends with an empty accumulator.  Returns the emitted events (terminated
    by `done` or `error`) and the final transcript. -/
def toolLoop (argParse : String → Option α)
    (exec : String → α → Except String String) (msgs : List Msg)
    (acc : AccList) : List RoundOutcome → List (Ev α) × List Msg
  | [] =>
    if acc = [] then ([Ev.done], msgs)
    else
      let r1 := execRoundCalls argParse exec acc
      (r1.1 ++ [Ev.done], msgs ++ r1.2)
  | (.error m) :: _ =>
    if acc = [] then ([Ev.done], msgs)
    else
      let r1 := execRoundCalls argParse exec acc
      (r1.1 ++ [Ev.error m], msgs ++ r1.2)
  | (.ok chunks) :: rest =>
    if acc = [] then ([Ev.done], msgs)
    else
      let r1 := execRoundCalls argParse exec acc
      let s := streamRound ([] : AccList) chunks
      if s.1 = [] then (r1.1 ++ s.2.1 ++ [Ev.done], msgs ++ r1.2)
      else
        let t := toolLoop argParse exec (msgs ++ r1.2) s.1 rest
        (r1.1 ++ s.2.1 ++ t.1, t.2)

/-- One whole turn of `stream_chat_completion` (tools enabled): round 0 is
    streamed; on a truthy finish with a non-empty accumulator the tool loop
    runs over the remaining scripted rounds, otherwise the generator returns.
    The emitted event list ends with `done` (normal return) or `error`
    (propagated transport `ValueError`); the second component is the final
    transcript (`current_messages`, or the untouched initial messages when
    the tool loop never starts). -/
def engineRun (argParse : String → Option α)
    (exec : String → α → Except String String) (initMsgs : List Msg)
    (script : List RoundOutcome) : List (Ev α) × List Msg :=
  match script with
  | [] => ([Ev.done], initMsgs)
  | (.error m) :: _ => ([Ev.error m], initMsgs)
  | (.ok chunks) :: rest =>
    let s := streamRound ([] : AccList) chunks
    match s.2.2 with
    | some _ =>
      if s.1 = [] then (s.2.1 ++ [Ev.done], initMsgs)
      else
        let t := toolLoop argParse exec initMsgs s.1 rest
        (s.2.1 ++ t.1, t.2)
    | none => (s.2.1 ++ [Ev.done], initMsgs)

/-! ## Tool service

Model of `ToolService.execute_tool_call` (tool_service.py lines 122-176).
The MCP clients are abstracted as an `McpWorld`: `initOk c` says whether
`_initialize_client(c)` returns a client (it returns `None` both for missing
credentials and when construction raises, so one Bool covers both), and
`callTool c t a` is `client.call_tool(t, a)` — `.error` models a raised
exception, `.ok` the already-stringified result (the source's
string/iterable/json conversion of the raw result is folded into the
returned string). -/

/-- Abstract behavior of the MCP clients for one turn. -/
structure McpWorld (α : Type) where
  initOk : String → Bool
  callTool : String → String → α → Except String String

/-- Client names checked, in order, by `execute_tool_call`. -/
def knownClients : List String :=
  ["supabase", "firecrawl", "tavily", "sequential_thinking"]

/-- Resolution of `tool_name` into `(client_name, actual_tool_name)`:
    the first known client `c` with `tool_name.startswith(c + "_")`, the rest
    of the name after the underscore. -/
def matchClient (toolName : String) : Option (String × String) :=
  List.findSome?
    (fun c =>
      if strStarts toolName (c ++ "_") then
        some (c, strDrop toolName (strLen c + 1))
      else none)
    knownClients

/-- Wrapper the `except` branch applies to any failure message. -/
def toolExecutionFailed (m : String) : String := "Tool execution failed: " ++ m

/-- Body of the `try` block of `execute_tool_call`: each `raise ValueError`
    and each exception out of `call_tool` is an `.error`. -/
def executeToolCallE (w : McpWorld α) (toolName : String) (args : α) :
    Except String String :=
  if strContainsChar toolName '_' = false then
    .error ("Invalid tool name format: " ++ toolName)
  else
    match matchClient toolName with
    | none => .error ("Unknown MCP client for tool: " ++ toolName)
    | some ct =>
      if w.initOk ct.1 then w.callTool ct.1 ct.2 args
      else .error ("Failed to initialize " ++ ct.1 ++ " MCP client")

/-- Whole `execute_tool_call`: the `except Exception` branch converts every
    failure into an ordinary result string. -/
def executeToolCall (w : McpWorld α) (toolName : String) (args : α) : String :=
  match executeToolCallE w toolName args with
  | .ok s => s
  | .error m => toolExecutionFailed m

/-- The tool capability the engine actually calls
    (`user_tool_service.execute_tool_call`): it never raises. -/
def toolServiceExec (w : McpWorld α) : String → α → Except String String :=
  fun n a => .ok (executeToolCall w n a)

/-! ## HTTP status mapping

Model of the `except httpx.HTTPStatusError` handler of
`chat_completion_stream` (openrouter.py lines 208-240): the message of the
`ValueError` raised for a non-2xx upstream response. -/

/-- Message of the final `else` branch. -/
def genericStreamError (status : Nat) (detail : String) : String :=
  "OpenRouter streaming API error (" ++ toString status ++ "): " ++ detail

/-- Message selected from the response status, model name and extracted error
    detail. -/
def statusFailureMessage (status : Nat) (model : String) (detail : String) : String :=
  if status = 401 then
    "Invalid API key. Please check your OpenRouter API key and try again."
  else if status = 402 then
    if strHasSub (lowerStr detail) "credits" then
      "Insufficient credits for this model. Please add credits to your OpenRouter account."
    else
      "Payment required. Please check your OpenRouter account balance."
  else if status = 429 then
    "Rate limit exceeded. Please try again in a few minutes."
  else if status = 404 then
    "Model '" ++ model ++ "' is not available. Please try a different model."
  else if status = 422 then
    "Invalid request for model '" ++ model ++ "'. Please check your input and try again."
  else
    genericStreamError status detail

/-! ## Event predicates -/

/-- Terminal events: `done` (normal generator return) and `error`
    (propagated exception). -/
def isTerminalEv : Ev α → Bool
  | .done => true
  | .error _ => true
  | _ => false

/-- Events of the `tool_*` family. -/
def isToolFamilyEv : Ev α → Bool
  | .toolCallProgress _ => true
  | .toolCall _ _ => true
  | .toolResult _ _ => true
  | .toolError _ => true
  | _ => false

/-- Payload of a `content` event. -/
def evContent : Ev α → Option String
  | .content s => some s
  | _ => none

/-- Detection of the `except`-branch `tool_error` payload. -/
def isExecFailedEv : Ev α → Bool
  | .toolError (.execFailed _ _) => true
  | _ => false

/-- Tool-call deltas carried by a chunk's first choice. -/
def chunkToolCalls (ch : Chunk) : List ToolCallDelta :=
  match ch.choices with
  | [] => []
  | c :: _ => c.delta.toolCalls

/-- Content field of a chunk's first choice. -/
def chunkContent (ch : Chunk) : Option String :=
  match ch.choices with
  | [] => none
  | c :: _ => c.delta.content

/-- Truthy finish reason of a chunk's first choice. -/
def chunkFin (ch : Chunk) : Option String :=
  match ch.choices with
  | [] => none
  | c :: _ => if optTruthy c.finishReason then c.finishReason else none

/-- Chunks actually consumed by one round: everything up to and including the
    first chunk with a truthy finish reason. -/
def upToFinish : List Chunk → List Chunk
  | [] => []
  | c :: cs =>
    match chunkFin c with
    | some _ => [c]
    | none => c :: upToFinish cs

/-! ### Basic facts about the delta handler -/

theorem procChunk_fin (acc : AccList) (ch : Chunk) :
    (procChunk (α := α) acc ch).2.2 = chunkFin ch := by
  unfold procChunk chunkFin
  cases ch.choices with
  | nil => rfl
  | cons c rest =>
    by_cases h1 : c.delta.toolCalls = []
    · by_cases h2 : optTruthy c.delta.reasoning
      · simp [h1, h2]
      · by_cases h3 : optTruthy c.delta.content <;> simp [h1, h2, h3]
    · simp [h1]

theorem procChunk_acc_noTC (acc : AccList) (ch : Chunk)
    (h : chunkToolCalls ch = []) : (procChunk (α := α) acc ch).1 = acc := by
  unfold chunkToolCalls at h
  unfold procChunk
  cases hc : ch.choices with
  | nil => rfl
  | cons c rest =>
    rw [hc] at h
    simp only at h
    by_cases h2 : optTruthy c.delta.reasoning
    · simp [h, h2]
    · by_cases h3 : optTruthy c.delta.content <;> simp [h, h2, h3]

theorem procChunk_events_no_terminal (acc : AccList) (ch : Chunk) :
    ((procChunk (α := α) acc ch).2.1.all fun e => !isTerminalEv e) = true := by
  unfold procChunk
  cases ch.choices with
  | nil => rfl
  | cons c rest =>
    by_cases h1 : c.delta.toolCalls = []
    · by_cases h2 : optTruthy c.delta.reasoning
      · simp [h1, h2, isTerminalEv]
      · by_cases h3 : optTruthy c.delta.content <;>
          simp [h1, h2, h3, isTerminalEv]
    · simp [h1, isTerminalEv]

theorem procChunk_events_no_toolFamily (acc : AccList) (ch : Chunk)
    (h : chunkToolCalls ch = []) :
    ((procChunk (α := α) acc ch).2.1.all fun e => !isToolFamilyEv e) = true := by
  unfold chunkToolCalls at h
  unfold procChunk
  cases hc : ch.choices with
  | nil => rfl
  | cons c rest =>
    rw [hc] at h
    simp only at h
    by_cases h2 : optTruthy c.delta.reasoning
    · simp [h, h2, isToolFamilyEv]
    · by_cases h3 : optTruthy c.delta.content <;>
        simp [h, h2, h3, isToolFamilyEv]

theorem streamRound_events_no_terminal (acc : AccList) (chunks : List Chunk) :
    ((streamRound (α := α) acc chunks).2.1.all fun e => !isTerminalEv e) = true := by
  induction chunks generalizing acc with
  | nil => rfl
  | cons c cs ih =>
    unfold streamRound
    cases hf : (procChunk (α := α) acc c).2.2 with
    | some r =>
      simp only [hf]
      simpa using procChunk_events_no_terminal (α := α) acc c
    | none =>
      have h1 := procChunk_events_no_terminal (α := α) acc c
      have h2 := ih (procChunk (α := α) acc c).1
      simp only [hf, List.all_append]
      simp [h1, h2]

theorem streamRound_acc_noTC (acc : AccList) (chunks : List Chunk)
    (h : ∀ c ∈ chunks, chunkToolCalls c = []) :
    (streamRound (α := α) acc chunks).1 = acc := by
  induction chunks generalizing acc with
  | nil => rfl
  | cons c cs ih =>
    have hc : chunkToolCalls c = [] := h c (List.mem_cons_self c cs)
    have hcs : ∀ x ∈ cs, chunkToolCalls x = [] :=
      fun x hx => h x (List.mem_cons_of_mem c hx)
    unfold streamRound
    cases hf : (procChunk (α := α) acc c).2.2 with
    | some r =>
      simp only [hf]
      simpa using procChunk_acc_noTC acc c hc
    | none =>
      simp only [hf]
      rw [ih _ hcs, procChunk_acc_noTC acc c hc]

theorem streamRound_events_noTC (acc : AccList) (chunks : List Chunk)
    (h : ∀ c ∈ chunks, chunkToolCalls c = []) :
    ((streamRound (α := α) acc chunks).2.1.all fun e => !isToolFamilyEv e) = true := by
  induction chunks generalizing acc with
  | nil => rfl
  | cons c cs ih =>
    have hc : chunkToolCalls c = [] := h c (List.mem_cons_self c cs)
    have hcs : ∀ x ∈ cs, chunkToolCalls x = [] :=
      fun x hx => h x (List.mem_cons_of_mem c hx)
    unfold streamRound
    cases hf : (procChunk (α := α) acc c).2.2 with
    | some r =>
      simp only [hf]
      simpa using procChunk_events_no_toolFamily acc c hc
    | none =>
      have h1 := procChunk_events_no_toolFamily (α := α) acc c hc
      have h2 := ih (procChunk (α := α) acc c).1 hcs
      simp only [hf, List.all_append]
      simp [h1, h2]

theorem execEntry_events_no_terminal (argParse : String → Option α)
    (exec : String → α → Except String String) (p : Nat × AccEntry) :
    ((execEntry argParse exec p).1.all fun e => !isTerminalEv e) = true := by
  unfold execEntry
  by_cases h1 : p.2.name = "" ∨ p.2.args = ""
  · simp [h1, isTerminalEv]
  · cases h2 : argParse p.2.args with
    | none => simp [h1, h2, isTerminalEv]
    | some a =>
      cases h3 : exec p.2.name a with
      | ok r => simp [h1, h2, h3, isTerminalEv]
      | error m => simp [h1, h2, h3, isTerminalEv]

theorem execRoundCalls_events_no_terminal (argParse : String → Option α)
    (exec : String → α → Except String String) (acc : AccList) :
    ((execRoundCalls argParse exec acc).1.all fun e => !isTerminalEv e) = true := by
  induction acc with
  | nil => rfl
  | cons p rest ih =>
    unfold execRoundCalls
    simp only [List.all_append]
    have h1 := execEntry_events_no_terminal argParse exec p
    simp [h1, ih]

/-! ### Terminal-event structure of a turn -/

theorem toolLoop_shape (argParse : String → Option α)
    (exec : String → α → Except String String) (msgs : List Msg) (acc : AccList)
    (script : List RoundOutcome) :
    ∃ pre t, (toolLoop argParse exec msgs acc script).1 = pre ++ [t]
      ∧ isTerminalEv t = true ∧ (pre.all fun e => !isTerminalEv e) = true := by
  induction script generalizing msgs acc with
  | nil =>
    unfold toolLoop
    by_cases ha : acc = []
    · exact ⟨[], Ev.done, by simp [ha], rfl, rfl⟩
    · refine ⟨(execRoundCalls argParse exec acc).1, Ev.done, by simp [ha], rfl, ?_⟩
      exact execRoundCalls_events_no_terminal argParse exec acc
  | cons r rest ih =>
    by_cases ha : acc = []
    · cases r <;> exact ⟨[], Ev.done, by simp [toolLoop, ha], rfl, rfl⟩
    · cases r with
      | error m =>
        refine ⟨(execRoundCalls argParse exec acc).1, Ev.error m,
          by simp [toolLoop, ha], rfl, ?_⟩
        exact execRoundCalls_events_no_terminal argParse exec acc
      | ok chunks =>
        unfold toolLoop
        by_cases hs : (streamRound (α := α) ([] : AccList) chunks).1 = []
        · refine ⟨(execRoundCalls argParse exec acc).1 ++
            (streamRound (α := α) ([] : AccList) chunks).2.1, Ev.done,
            by simp [ha, hs], rfl, ?_⟩
          simp [List.all_append, execRoundCalls_events_no_terminal,
            streamRound_events_no_terminal]
        · obtain ⟨pre, t, h1, h2, h3⟩ :=
            ih (msgs ++ (execRoundCalls argParse exec acc).2)
              (streamRound (α := α) ([] : AccList) chunks).1
          refine ⟨(execRoundCalls argParse exec acc).1 ++
            (streamRound (α := α) ([] : AccList) chunks).2.1 ++ pre, t, ?_, h2, ?_⟩
          · simp [ha, hs, h1]
          · simp [List.all_append, execRoundCalls_events_no_terminal,
              streamRound_events_no_terminal, h3]

theorem engineRun_shape (argParse : String → Option α)
    (exec : String → α → Except String String) (initMsgs : List Msg)
    (script : List RoundOutcome) :
    ∃ pre t, (engineRun argParse exec initMsgs script).1 = pre ++ [t]
      ∧ isTerminalEv t = true ∧ (pre.all fun e => !isTerminalEv e) = true := by
  cases script with
  | nil => exact ⟨[], Ev.done, rfl, rfl, rfl⟩
  | cons r rest =>
    cases r with
    | error m => exact ⟨[], Ev.error m, rfl, rfl, rfl⟩
    | ok chunks =>
      unfold engineRun
      cases hf : (streamRound (α := α) ([] : AccList) chunks).2.2 with
      | none =>
        refine ⟨(streamRound (α := α) ([] : AccList) chunks).2.1, Ev.done,
          by simp [hf], rfl, ?_⟩
        exact streamRound_events_no_terminal ([] : AccList) chunks
      | some fin =>
        by_cases hs : (streamRound (α := α) ([] : AccList) chunks).1 = []
        · refine ⟨(streamRound (α := α) ([] : AccList) chunks).2.1, Ev.done,
            by simp [hf, hs], rfl, ?_⟩
          exact streamRound_events_no_terminal ([] : AccList) chunks
        · obtain ⟨pre, t, h1, h2, h3⟩ :=
            toolLoop_shape argParse exec initMsgs
              (streamRound (α := α) ([] : AccList) chunks).1 rest
          refine ⟨(streamRound (α := α) ([] : AccList) chunks).2.1 ++ pre, t, ?_, h2, ?_⟩
          · simp [hf, hs, h1]
          · simp [List.all_append, streamRound_events_no_terminal, h3]

theorem toolLoop_allOk_done (argParse : String → Option α)
    (exec : String → α → Except String String) (msgs : List Msg) (acc : AccList)
    (script : List RoundOutcome) (h : ∀ r ∈ script, ∃ cs, r = Except.ok cs) :
    ∃ pre, (toolLoop argParse exec msgs acc script).1 = pre ++ [Ev.done]
      ∧ (pre.all fun e => !isTerminalEv e) = true := by
  induction script generalizing msgs acc with
  | nil =>
    unfold toolLoop
    by_cases ha : acc = []
    · exact ⟨[], by simp [ha], rfl⟩
    · exact ⟨(execRoundCalls argParse exec acc).1, by simp [ha],
        execRoundCalls_events_no_terminal argParse exec acc⟩
  | cons r rest ih =>
    obtain ⟨cs, rfl⟩ := h r (List.mem_cons_self r rest)
    unfold toolLoop
    by_cases ha : acc = []
    · exact ⟨[], by simp [ha], rfl⟩
    · have hrest : ∀ x ∈ rest, ∃ c, x = Except.ok c :=
        fun x hx => h x (List.mem_cons_of_mem _ hx)
      by_cases hs : (streamRound (α := α) ([] : AccList) cs).1 = []
      · refine ⟨(execRoundCalls argParse exec acc).1 ++
          (streamRound (α := α) ([] : AccList) cs).2.1, by simp [ha, hs], ?_⟩
        simp [List.all_append, execRoundCalls_events_no_terminal,
          streamRound_events_no_terminal]
      · obtain ⟨pre, h1, h2⟩ :=
          ih (msgs ++ (execRoundCalls argParse exec acc).2)
            (streamRound (α := α) ([] : AccList) cs).1 hrest
        refine ⟨(execRoundCalls argParse exec acc).1 ++
          (streamRound (α := α) ([] : AccList) cs).2.1 ++ pre, by simp [ha, hs, h1], ?_⟩
        simp [List.all_append, execRoundCalls_events_no_terminal,
          streamRound_events_no_terminal, h2]

theorem engineRun_allOk_done (argParse : String → Option α)
    (exec : String → α → Except String String) (initMsgs : List Msg)
    (script : List RoundOutcome) (h : ∀ r ∈ script, ∃ cs, r = Except.ok cs) :
    ∃ pre, (engineRun argParse exec initMsgs script).1 = pre ++ [Ev.done]
      ∧ (pre.all fun e => !isTerminalEv e) = true := by
  cases script with
  | nil => exact ⟨[], rfl, rfl⟩
  | cons r rest =>
    obtain ⟨cs, rfl⟩ := h r (List.mem_cons_self r rest)
    have hrest : ∀ x ∈ rest, ∃ c, x = Except.ok c :=
      fun x hx => h x (List.mem_cons_of_mem _ hx)
    unfold engineRun
    cases hf : (streamRound (α := α) ([] : AccList) cs).2.2 with
    | none =>
      exact ⟨(streamRound (α := α) ([] : AccList) cs).2.1, by simp [hf],
        streamRound_events_no_terminal ([] : AccList) cs⟩
    | some fin =>
      by_cases hs : (streamRound (α := α) ([] : AccList) cs).1 = []
      · exact ⟨(streamRound (α := α) ([] : AccList) cs).2.1, by simp [hf, hs],
          streamRound_events_no_terminal ([] : AccList) cs⟩
      · obtain ⟨pre, h1, h2⟩ :=
          toolLoop_allOk_done argParse exec initMsgs
            (streamRound (α := α) ([] : AccList) cs).1 rest hrest
        refine ⟨(streamRound (α := α) ([] : AccList) cs).2.1 ++ pre,
          by simp [hf, hs, h1], ?_⟩
        simp [List.all_append, streamRound_events_no_terminal, h2]

theorem engineRun_noTC (argParse : String → Option α)
    (exec : String → α → Except String String) (initMsgs : List Msg)
    (chunks : List Chunk) (rest : List RoundOutcome)
    (h : ∀ c ∈ chunks, chunkToolCalls c = []) :
    (engineRun argParse exec initMsgs (Except.ok chunks :: rest)).1 =
      (streamRound (α := α) ([] : AccList) chunks).2.1 ++ [Ev.done] := by
  have hacc := streamRound_acc_noTC (α := α) ([] : AccList) chunks h
  unfold engineRun
  cases hf : (streamRound (α := α) ([] : AccList) chunks).2.2 with
  | none => simp [hf]
  | some fin => simp [hf, hacc]

/-! ### Content concatenation -/

/-- Reasoning field of a chunk's first choice. -/
def chunkReasoning (ch : Chunk) : Option String :=
  match ch.choices with
  | [] => none
  | c :: _ => c.delta.reasoning

/-- Content fragments produced by a chunk sequence (the `delta["content"]`
    values of the first choices, in order). -/
def contentFragments (chunks : List Chunk) : List String :=
  chunks.filterMap chunkContent

/-- Payloads of the `content` events in an event list. -/
def contentEvs (evs : List (Ev α)) : List String := evs.filterMap evContent

/-- Chunks that do not mask their content fragment: whenever the content
    field is truthy, neither `tool_calls` nor `reasoning` takes priority over
    it in the source's `elif` chain.  This is exactly the single-concern
    shape of the spec's Delta union. -/
def unmaskedChunk (ch : Chunk) : Prop :=
  optTruthy (chunkContent ch) = true →
    chunkToolCalls ch = [] ∧ optTruthy (chunkReasoning ch) = false

instance (ch : Chunk) : Decidable (unmaskedChunk ch) := by
  unfold unmaskedChunk
  infer_instance

theorem optTruthy_none : optTruthy none = false := rfl

theorem optTruthy_some_empty : optTruthy (some "") = false := rfl

theorem optTruthy_some_ne (s : String) (h : s ≠ "") : optTruthy (some s) = true := by
  simp [optTruthy, h]

theorem strApp_data (a b : String) : a ++ b = ⟨a.data ++ b.data⟩ := by
  cases a
  cases b
  rfl

theorem joinStr_nil : joinStr [] = "" := rfl

theorem joinStr_cons (s : String) (l : List String) :
    joinStr (s :: l) = s ++ joinStr l := by
  rw [strApp_data]
  rfl

theorem joinStr_append (l1 l2 : List String) :
    joinStr (l1 ++ l2) = joinStr l1 ++ joinStr l2 := by
  rw [strApp_data]
  simp only [joinStr, List.map_append, List.flatten_append]

theorem joinStr_single_empty : joinStr [""] = "" := rfl

theorem strEmpty_append (s : String) : "" ++ s = s := by
  rw [strApp_data]
  cases s
  rfl

theorem procChunk_content (acc : AccList) (ch : Chunk) (h : unmaskedChunk ch) :
    joinStr (contentEvs (procChunk (α := α) acc ch).2.1) =
      joinStr (chunkContent ch).toList := by
  unfold unmaskedChunk at h
  unfold procChunk chunkContent chunkToolCalls chunkReasoning at *
  cases hc : ch.choices with
  | nil => rfl
  | cons c rest =>
    rw [hc] at h
    simp only at h
    by_cases h1 : c.delta.toolCalls = []
    · by_cases h2 : optTruthy c.delta.reasoning
      · have hnc : optTruthy c.delta.content = false := by
          cases hx : optTruthy c.delta.content
          · rfl
          · exact absurd (h hx).2 (by simp [h2])
        cases hcc : c.delta.content with
        | none => simp [h1, h2, hcc, contentEvs, evContent, joinStr_nil]
        | some s =>
          rw [hcc] at hnc
          have hs : s = "" := by simpa [optTruthy] using hnc
          subst hs
          simp [h1, h2, hcc, contentEvs, evContent, joinStr_nil,
            joinStr_single_empty]
      · cases hcc : c.delta.content with
        | none =>
          simp [h1, h2, hcc, contentEvs, evContent, optTruthy_none, joinStr_nil]
        | some s =>
          by_cases hs : s = ""
          · subst hs
            simp [h1, h2, hcc, contentEvs, evContent, optTruthy_some_empty,
              joinStr_nil, joinStr_single_empty]
          · simp [h1, h2, hcc, contentEvs, evContent, optTruthy_some_ne s hs]
    · have hnc : optTruthy c.delta.content = false := by
        cases hx : optTruthy c.delta.content
        · rfl
        · exact absurd (h hx).1 h1
      cases hcc : c.delta.content with
      | none => simp [h1, hcc, contentEvs, evContent, joinStr_nil]
      | some s =>
        rw [hcc] at hnc
        have hs : s = "" := by simpa [optTruthy] using hnc
        subst hs
        simp [h1, hcc, contentEvs, evContent, joinStr_nil, joinStr_single_empty]

theorem upToFinish_cons_some (c : Chunk) (cs : List Chunk) (r : String)
    (hf : chunkFin c = some r) : upToFinish (c :: cs) = [c] := by
  simp only [upToFinish, hf]

theorem upToFinish_cons_none (c : Chunk) (cs : List Chunk)
    (hf : chunkFin c = none) : upToFinish (c :: cs) = c :: upToFinish cs := by
  simp only [upToFinish, hf]

theorem streamRound_content (acc : AccList) (chunks : List Chunk)
    (h : ∀ c ∈ upToFinish chunks, unmaskedChunk c) :
    joinStr (contentEvs (streamRound (α := α) acc chunks).2.1) =
      joinStr (contentFragments (upToFinish chunks)) := by
  induction chunks generalizing acc with
  | nil => rfl
  | cons c cs ih =>
    have hfin := procChunk_fin (α := α) acc c
    unfold streamRound
    cases hf : chunkFin c with
    | some r =>
      have huf := upToFinish_cons_some c cs r hf
      have hc : unmaskedChunk c := by
        apply h
        rw [huf]
        exact List.mem_singleton.mpr rfl
      rw [hf] at hfin
      simp only [hfin, huf]
      unfold contentFragments
      cases hcc : chunkContent c with
      | none => simpa [hcc] using procChunk_content (α := α) acc c hc
      | some s => simpa [hcc] using procChunk_content (α := α) acc c hc
    | none =>
      have huf := upToFinish_cons_none c cs hf
      have hc : unmaskedChunk c := by
        apply h
        rw [huf]
        exact List.mem_cons_self _ _
      have hcs : ∀ x ∈ upToFinish cs, unmaskedChunk x := by
        intro x hx
        apply h
        rw [huf]
        exact List.mem_cons_of_mem _ hx
      rw [hf] at hfin
      simp only [hfin, huf]
      unfold contentEvs contentFragments
      rw [List.filterMap_append, joinStr_append, List.filterMap_cons]
      have h1 := procChunk_content (α := α) acc c hc
      have h2 := ih (procChunk (α := α) acc c).1 hcs
      unfold contentEvs at h1
      unfold contentEvs contentFragments at h2
      rw [h1, h2]
      cases hcc : chunkContent c with
      | none =>
        show joinStr [] ++ _ = _
        rw [joinStr_nil, strEmpty_append]
      | some s =>
        show joinStr [s] ++ _ = _
        have hs1 : joinStr [s] = s := by
          rw [joinStr_cons, joinStr_nil, String.append_empty]
        rw [hs1]
        show _ = joinStr (s :: _)
        rw [joinStr_cons]

/-! ### Accumulator aggregation -/

/-- String contributed by one optional fragment (an absent or empty fragment
    contributes nothing). -/
def fragStr : Option String → String
  | none => ""
  | some s => s

/-- Ordered concatenation of the fragments for index `i` selected by the
    field accessor `f`, over an arrival sequence of tool-call deltas. -/
def fragsOf (i : Nat) (f : ToolCallDelta → Option String)
    (ds : List ToolCallDelta) : String :=
  joinStr ((ds.filter fun d => d.index = i).map fun d => fragStr (f d))

/-- Entry obtained by extending `e` with all fragments for index `i` in
    `ds`. -/
def extendEntry (e : AccEntry) (i : Nat) (ds : List ToolCallDelta) : AccEntry :=
  { id := e.id ++ fragsOf i (·.idFrag) ds
    name := e.name ++ fragsOf i (·.nameFrag) ds
    args := e.args ++ fragsOf i (·.argsFrag) ds }

theorem appFrag_eq (cur : String) (f : Option String) :
    appFrag cur f = cur ++ fragStr f := by
  cases f with
  | none => rw [appFrag, fragStr, String.append_empty]
  | some s =>
    by_cases hs : s = ""
    · subst hs
      rw [appFrag, fragStr]
      simp [String.append_empty]
    · simp [appFrag, fragStr, hs]

theorem fragsOf_nil (i : Nat) (f : ToolCallDelta → Option String) :
    fragsOf i f [] = "" := rfl

theorem fragsOf_cons_self (i : Nat) (f : ToolCallDelta → Option String)
    (d : ToolCallDelta) (ds : List ToolCallDelta) (h : d.index = i) :
    fragsOf i f (d :: ds) = fragStr (f d) ++ fragsOf i f ds := by
  unfold fragsOf
  rw [List.filter_cons_of_pos (by simp [h]), List.map_cons, joinStr_cons]

theorem fragsOf_cons_ne (i : Nat) (f : ToolCallDelta → Option String)
    (d : ToolCallDelta) (ds : List ToolCallDelta) (h : ¬ d.index = i) :
    fragsOf i f (d :: ds) = fragsOf i f ds := by
  unfold fragsOf
  rw [List.filter_cons_of_neg (by simp [h])]

theorem extendEntry_nil (e : AccEntry) (i : Nat) : extendEntry e i [] = e := by
  cases e
  simp [extendEntry, fragsOf_nil, String.append_empty]

theorem extendEntry_cons_self (e : AccEntry) (i : Nat) (d : ToolCallDelta)
    (ds : List ToolCallDelta) (h : d.index = i) :
    extendEntry (entryAppend e d) i ds = extendEntry e i (d :: ds) := by
  cases e
  simp only [extendEntry, entryAppend, AccEntry.mk.injEq,
    fragsOf_cons_self i _ d ds h, appFrag_eq, String.append_assoc]

theorem extendEntry_cons_ne (e : AccEntry) (i : Nat) (d : ToolCallDelta)
    (ds : List ToolCallDelta) (h : ¬ d.index = i) :
    extendEntry e i (d :: ds) = extendEntry e i ds := by
  cases e
  simp only [extendEntry, AccEntry.mk.injEq, fragsOf_cons_ne i _ d ds h]

theorem accFind_nil (i : Nat) : accFind [] i = none := rfl

theorem accFind_cons (p : Nat × AccEntry) (acc : AccList) (i : Nat) :
    accFind (p :: acc) i = if p.1 = i then some p.2 else accFind acc i := by
  by_cases h : p.1 = i
  · rw [accFind, List.find?_cons_of_pos _ (by simp [h])]
    simp [h]
  · rw [accFind, List.find?_cons_of_neg _ (by simp [h])]
    simp [h, accFind]

theorem accFind_upd_self (acc : AccList) (d : ToolCallDelta) :
    accFind (List.map (fun p => if p.1 = d.index then (p.1, entryAppend p.2 d) else p) acc)
        d.index = (accFind acc d.index).map fun e => entryAppend e d := by
  induction acc with
  | nil => rfl
  | cons q acc ih =>
    by_cases hq : q.1 = d.index
    · simp only [List.map_cons, hq, if_true]
      rw [accFind_cons, accFind_cons]
      simp [hq]
    · simp only [List.map_cons, hq, if_false]
      rw [accFind_cons, accFind_cons]
      simp [hq, ih]

theorem accFind_upd_ne (acc : AccList) (d : ToolCallDelta) (i : Nat)
    (h : ¬ i = d.index) :
    accFind (List.map (fun p => if p.1 = d.index then (p.1, entryAppend p.2 d) else p) acc)
        i = accFind acc i := by
  induction acc with
  | nil => rfl
  | cons q acc ih =>
    by_cases hq : q.1 = d.index
    · simp only [List.map_cons, hq, if_true]
      rw [accFind_cons, accFind_cons]
      have hdi : ¬ d.index = i := fun hx => h hx.symm
      rw [hq]
      simp [hdi, ih]
    · simp only [List.map_cons, hq, if_false]
      rw [accFind_cons, accFind_cons]
      by_cases hqi : q.1 = i
      · simp [hqi]
      · simp [hqi, ih]

theorem accFind_append_one (acc : AccList) (j : Nat) (e : AccEntry) (i : Nat) :
    accFind (acc ++ [(j, e)]) i =
      match accFind acc i with
      | some x => some x
      | none => if j = i then some e else none := by
  induction acc with
  | nil =>
    rw [List.nil_append, accFind_nil, accFind_cons]
    by_cases h : j = i <;> simp [h, accFind_nil]
  | cons q acc ih =>
    rw [List.cons_append, accFind_cons, accFind_cons]
    by_cases h : q.1 = i
    · simp [h]
    · simp only [h, if_false]
      exact ih

theorem accFind_accStep_self (acc : AccList) (d : ToolCallDelta) :
    accFind (accStep acc d) d.index =
      some (entryAppend ((accFind acc d.index).getD emptyEntry) d) := by
  unfold accStep
  cases hm : accFind acc d.index with
  | some e =>
    simp only [hm]
    rw [accFind_upd_self]
    simp [hm]
  | none =>
    simp only [hm]
    rw [accFind_append_one]
    simp [hm]

theorem accFind_accStep_ne (acc : AccList) (d : ToolCallDelta) (i : Nat)
    (h : ¬ i = d.index) : accFind (accStep acc d) i = accFind acc i := by
  unfold accStep
  cases hm : accFind acc d.index with
  | some e =>
    simp only [hm]
    exact accFind_upd_ne acc d i h
  | none =>
    simp only [hm]
    rw [accFind_append_one]
    have hdi : ¬ d.index = i := fun hx => h hx.symm
    cases hx : accFind acc i with
    | some x => simp
    | none => simp [hdi]

theorem accFind_foldl_accStep (ds : List ToolCallDelta) (acc : AccList) (i : Nat) :
    accFind (List.foldl accStep acc ds) i =
      match accFind acc i with
      | some e => some (extendEntry e i ds)
      | none =>
        if ds.any (fun d => d.index = i) then some (extendEntry emptyEntry i ds)
        else none := by
  induction ds generalizing acc with
  | nil =>
    cases hm : accFind acc i <;> simp [hm, extendEntry_nil]
  | cons d ds ih =>
    rw [List.foldl_cons, ih]
    by_cases hi : d.index = i
    · subst hi
      rw [accFind_accStep_self]
      cases hm : accFind acc d.index with
      | some e =>
        simp only [hm, Option.getD]
        rw [extendEntry_cons_self e d.index d ds rfl]
      | none =>
        simp only [hm, Option.getD]
        rw [extendEntry_cons_self emptyEntry d.index d ds rfl]
        simp
    · rw [accFind_accStep_ne acc d i (fun hx => hi hx.symm)]
      cases hm : accFind acc i with
      | some e =>
        simp only [hm]
        rw [extendEntry_cons_ne e i d ds hi]
      | none =>
        simp only [hm, List.any_cons]
        rw [extendEntry_cons_ne emptyEntry i d ds hi]
        simp [hi]

/-- Claim-side characterization of `accumulate`: each field of the entry at
    index `i` is the order-preserving concatenation of that index's
    fragments. -/
theorem accumulate_find (ds : List ToolCallDelta) (i : Nat) :
    accFind (accumulate ds) i =
      if ds.any (fun d => d.index = i) then
        some ⟨fragsOf i (·.idFrag) ds, fragsOf i (·.nameFrag) ds,
          fragsOf i (·.argsFrag) ds⟩
      else none := by
  unfold accumulate
  rw [accFind_foldl_accStep, accFind_nil]
  by_cases h : ds.any (fun d => d.index = i)
  · simp only [h, if_true]
    unfold extendEntry emptyEntry
    simp [strEmpty_append]
  · simp [h]

/-! ### Insertion order of accumulator keys -/

/-- Keys of the accumulator in dict order. -/
def accKeys (acc : AccList) : List Nat := acc.map (·.1)

/-- Append a key if it is new (dict insertion). -/
def insertNew (ks : List Nat) (i : Nat) : List Nat :=
  if i ∈ ks then ks else ks ++ [i]

/-- First-occurrence order of a key sequence. -/
def firstOcc (l : List Nat) : List Nat := List.foldl insertNew [] l

theorem accFind_eq_none_iff (acc : AccList) (i : Nat) :
    accFind acc i = none ↔ i ∉ accKeys acc := by
  induction acc with
  | nil => simp [accFind_nil, accKeys]
  | cons q acc ih =>
    rw [accFind_cons]
    by_cases h : q.1 = i
    · simp [h, accKeys]
    · simp only [h, if_false, ih, accKeys, List.map_cons, List.mem_cons]
      constructor
      · rintro hni (hx | hx)
        · exact h hx.symm
        · exact hni hx
      · intro hni
        exact fun hx => hni (Or.inr hx)

theorem accKeys_accStep (acc : AccList) (d : ToolCallDelta) :
    accKeys (accStep acc d) = insertNew (accKeys acc) d.index := by
  unfold accStep insertNew
  cases hm : accFind acc d.index with
  | some e =>
    have hmem : d.index ∈ accKeys acc := by
      by_contra hx
      rw [← accFind_eq_none_iff] at hx
      rw [hm] at hx
      exact Option.noConfusion hx
    simp only [hmem, if_true]
    unfold accKeys
    rw [List.map_map]
    apply List.map_congr_left
    intro p hp
    by_cases hq : p.1 = d.index <;> simp [hq]
  | none =>
    have hmem : d.index ∉ accKeys acc := (accFind_eq_none_iff acc d.index).mp hm
    simp only [hmem, if_false]
    unfold accKeys
    rw [List.map_append]
    rfl

theorem accKeys_foldl (ds : List ToolCallDelta) (acc : AccList) :
    accKeys (List.foldl accStep acc ds) =
      List.foldl insertNew (accKeys acc) (ds.map (·.index)) := by
  induction ds generalizing acc with
  | nil => rfl
  | cons d ds ih =>
    rw [List.foldl_cons, List.map_cons, List.foldl_cons, ih, accKeys_accStep]

/-- Keys of the accumulator are exactly the indices in first-appearance
    (dict insertion) order. -/
theorem accKeys_accumulate (ds : List ToolCallDelta) :
    accKeys (accumulate ds) = firstOcc (ds.map (·.index)) := by
  unfold accumulate firstOcc
  exact accKeys_foldl ds []

/-! ### Executor facts -/

theorem execRoundCalls_cons (argParse : String → Option α)
    (exec : String → α → Except String String) (p : Nat × AccEntry)
    (rest : AccList) :
    execRoundCalls argParse exec (p :: rest) =
      ((execEntry argParse exec p).1 ++ (execRoundCalls argParse exec rest).1,
        (execEntry argParse exec p).2 ++ (execRoundCalls argParse exec rest).2) := rfl

theorem execRoundCalls_append (argParse : String → Option α)
    (exec : String → α → Except String String) (acc1 acc2 : AccList) :
    execRoundCalls argParse exec (acc1 ++ acc2) =
      ((execRoundCalls argParse exec acc1).1 ++ (execRoundCalls argParse exec acc2).1,
        (execRoundCalls argParse exec acc1).2 ++ (execRoundCalls argParse exec acc2).2) := by
  induction acc1 with
  | nil => simp [execRoundCalls]
  | cons p rest ih =>
    rw [List.cons_append, execRoundCalls_cons, execRoundCalls_cons, ih]
    simp [List.append_assoc]

theorem execEntry_ok (argParse : String → Option α)
    (exec : String → α → Except String String) (p : Nat × AccEntry) (a : α)
    (r : String) (hn : ¬ p.2.name = "") (ha : ¬ p.2.args = "")
    (hp : argParse p.2.args = some a) (he : exec p.2.name a = .ok r) :
    execEntry argParse exec p =
      ([.toolCall p.2.name a, .toolResult p.2.name r],
        [.assistantToolCalls p.2, .toolResultMsg p.2.id r]) := by
  unfold execEntry
  have h1 : ¬ (p.2.name = "" ∨ p.2.args = "") := by
    rintro (h | h)
    · exact hn h
    · exact ha h
  simp [h1, hp, he]

theorem execEntry_execFailed (argParse : String → Option α)
    (exec : String → α → Except String String) (p : Nat × AccEntry) (a : α)
    (m : String) (hn : ¬ p.2.name = "") (ha : ¬ p.2.args = "")
    (hp : argParse p.2.args = some a) (he : exec p.2.name a = .error m) :
    execEntry argParse exec p =
      ([.toolCall p.2.name a, .toolError (.execFailed m p.2.name)], []) := by
  unfold execEntry
  have h1 : ¬ (p.2.name = "" ∨ p.2.args = "") := by
    rintro (h | h)
    · exact hn h
    · exact ha h
  simp [h1, hp, he]

theorem execEntry_incomplete (argParse : String → Option α)
    (exec : String → α → Except String String) (p : Nat × AccEntry)
    (h : p.2.name = "" ∨ p.2.args = "") :
    execEntry argParse exec p = ([.toolError (.incomplete p.1)], []) := by
  unfold execEntry
  simp [h]

theorem execEntry_badJson (argParse : String → Option α)
    (exec : String → α → Except String String) (p : Nat × AccEntry)
    (hn : ¬ p.2.name = "") (ha : ¬ p.2.args = "")
    (hp : argParse p.2.args = none) :
    execEntry argParse exec p = ([.toolError (.badJson p.2.args)], []) := by
  unfold execEntry
  have h1 : ¬ (p.2.name = "" ∨ p.2.args = "") := by
    rintro (h | h)
    · exact hn h
    · exact ha h
  simp [h1, hp]

theorem execRoundCalls_mem_events (argParse : String → Option α)
    (exec : String → α → Except String String) (acc : AccList)
    (p : Nat × AccEntry) (h : p ∈ acc) (ev : Ev α)
    (hev : ev ∈ (execEntry argParse exec p).1) :
    ev ∈ (execRoundCalls argParse exec acc).1 := by
  induction acc with
  | nil => cases h
  | cons q rest ih =>
    unfold execRoundCalls
    rcases List.mem_cons.mp h with rfl | hmem
    · exact List.mem_append.mpr (Or.inl hev)
    · exact List.mem_append.mpr (Or.inr (ih hmem))

/-! ### Runs with a non-raising capability -/

theorem execEntry_no_execFailed (argParse : String → Option α)
    (exec : String → α → Except String String)
    (hex : ∀ n a, ∃ s, exec n a = .ok s) (p : Nat × AccEntry) :
    ((execEntry argParse exec p).1.all fun e => !isExecFailedEv e) = true := by
  unfold execEntry
  by_cases h1 : p.2.name = "" ∨ p.2.args = ""
  · simp [h1, isExecFailedEv]
  · cases h2 : argParse p.2.args with
    | none => simp [h1, h2, isExecFailedEv]
    | some a =>
      obtain ⟨s, hs⟩ := hex p.2.name a
      simp [h1, h2, hs, isExecFailedEv]

theorem execRoundCalls_no_execFailed (argParse : String → Option α)
    (exec : String → α → Except String String)
    (hex : ∀ n a, ∃ s, exec n a = .ok s) (acc : AccList) :
    ((execRoundCalls argParse exec acc).1.all fun e => !isExecFailedEv e) = true := by
  induction acc with
  | nil => rfl
  | cons p rest ih =>
    rw [execRoundCalls_cons]
    simp only [List.all_append]
    have h1 := execEntry_no_execFailed argParse exec hex p
    simp [h1, ih]

theorem procChunk_events_no_toolError (acc : AccList) (ch : Chunk) :
    ((procChunk (α := α) acc ch).2.1.all fun e => !isExecFailedEv e) = true := by
  unfold procChunk
  cases ch.choices with
  | nil => rfl
  | cons c rest =>
    by_cases h1 : c.delta.toolCalls = []
    · by_cases h2 : optTruthy c.delta.reasoning
      · simp [h1, h2, isExecFailedEv]
      · by_cases h3 : optTruthy c.delta.content <;>
          simp [h1, h2, h3, isExecFailedEv]
    · simp [h1, isExecFailedEv]

theorem streamRound_events_no_execFailed (acc : AccList) (chunks : List Chunk) :
    ((streamRound (α := α) acc chunks).2.1.all fun e => !isExecFailedEv e) = true := by
  induction chunks generalizing acc with
  | nil => rfl
  | cons c cs ih =>
    unfold streamRound
    cases hf : (procChunk (α := α) acc c).2.2 with
    | some r =>
      simp only [hf]
      simpa using procChunk_events_no_toolError (α := α) acc c
    | none =>
      have h1 := procChunk_events_no_toolError (α := α) acc c
      have h2 := ih (procChunk (α := α) acc c).1
      simp only [hf, List.all_append]
      simp [h1, h2]

theorem isExecFailedEv_done : isExecFailedEv (Ev.done : Ev α) = false := rfl

theorem isExecFailedEv_error (m : String) :
    isExecFailedEv (Ev.error m : Ev α) = false := rfl

theorem toolLoop_no_execFailed (argParse : String → Option α)
    (exec : String → α → Except String String)
    (hex : ∀ n a, ∃ s, exec n a = .ok s) (msgs : List Msg) (acc : AccList)
    (script : List RoundOutcome) :
    ((toolLoop argParse exec msgs acc script).1.all fun e => !isExecFailedEv e) = true := by
  induction script generalizing msgs acc with
  | nil =>
    unfold toolLoop
    by_cases ha : acc = []
    · simp [ha, isExecFailedEv_done]
    · have h1 := execRoundCalls_no_execFailed argParse exec hex acc
      simp [ha, List.all_append, h1, isExecFailedEv_done]
  | cons r rest ih =>
    by_cases ha : acc = []
    · cases r <;> simp [toolLoop, ha, isExecFailedEv_done]
    · have h1 := execRoundCalls_no_execFailed argParse exec hex acc
      cases r with
      | error m => simp [toolLoop, ha, List.all_append, h1, isExecFailedEv_error]
      | ok chunks =>
        have h2 := streamRound_events_no_execFailed (α := α) ([] : AccList) chunks
        by_cases hs : (streamRound (α := α) ([] : AccList) chunks).1 = []
        · simp [toolLoop, ha, hs, List.all_append, h1, h2, isExecFailedEv_done]
        · have h3 := ih (msgs ++ (execRoundCalls argParse exec acc).2)
            (streamRound (α := α) ([] : AccList) chunks).1
          simp [toolLoop, ha, hs, List.all_append, h1, h2, h3]

theorem engineRun_no_execFailed (argParse : String → Option α)
    (exec : String → α → Except String String)
    (hex : ∀ n a, ∃ s, exec n a = .ok s) (initMsgs : List Msg)
    (script : List RoundOutcome) :
    ((engineRun argParse exec initMsgs script).1.all fun e => !isExecFailedEv e) = true := by
  cases script with
  | nil => rfl
  | cons r rest =>
    cases r with
    | error m => simp [engineRun, isExecFailedEv_error]
    | ok chunks =>
      unfold engineRun
      have h2 := streamRound_events_no_execFailed (α := α) ([] : AccList) chunks
      cases hf : (streamRound (α := α) ([] : AccList) chunks).2.2 with
      | none => simp [hf, List.all_append, h2, isExecFailedEv_done]
      | some fin =>
        by_cases hs : (streamRound (α := α) ([] : AccList) chunks).1 = []
        · simp [hf, hs, List.all_append, h2, isExecFailedEv_done]
        · have h3 := toolLoop_no_execFailed argParse exec hex initMsgs
            (streamRound (α := α) ([] : AccList) chunks).1 rest
          simp [hf, hs, List.all_append, h2, h3]

/-! ### Tool service lemmas -/

theorem listStarts_mem (hay pat : List Char) (h : listStarts hay pat = true) :
    ∀ x ∈ pat, x ∈ hay := by
  induction pat generalizing hay with
  | nil => intro x hx; cases hx
  | cons p q ih =>
    cases hay with
    | nil => cases h
    | cons a t =>
      rw [listStarts] at h
      simp only [Bool.and_eq_true, decide_eq_true_eq] at h
      obtain ⟨h1, h2⟩ := h
      intro x hx
      rcases List.mem_cons.mp hx with rfl | hx
      · rw [← h1]; exact List.mem_cons_self a t
      · exact List.mem_cons_of_mem a (ih t h2 x hx)

theorem listStarts_append_self (p m : List Char) :
    listStarts (p ++ m) p = true := by
  induction p with
  | nil => cases m <;> rfl
  | cons c q ih => simp [listStarts, ih]

theorem matchClient_contains (n : String) (ct : String × String)
    (h : matchClient n = some ct) : strContainsChar n '_' = true := by
  obtain ⟨c, hc, hfc⟩ := List.exists_of_findSome?_eq_some h
  by_cases hscc : strStarts n (c ++ "_") = true
  · unfold strStarts at hscc
    have hm : '_' ∈ n.data := by
      apply listStarts_mem n.data (c ++ "_").data hscc
      rw [strApp_data]
      simp
    unfold strContainsChar
    simp only [List.any_eq_true]
    exact ⟨'_', hm, by simp⟩
  · rw [if_neg hscc] at hfc
    cases hfc

theorem executeToolCall_split (w : McpWorld α) (n : String) (a : α) :
    (∃ e, executeToolCallE w n a = .error e ∧
      executeToolCall w n a = toolExecutionFailed e) ∨
    (∃ s, executeToolCallE w n a = .ok s ∧ executeToolCall w n a = s) := by
  unfold executeToolCall
  cases h : executeToolCallE w n a with
  | error e => exact Or.inl ⟨e, rfl, rfl⟩
  | ok s => exact Or.inr ⟨s, rfl, rfl⟩

theorem executeToolCall_noUnderscore (w : McpWorld α) (n : String) (a : α)
    (h : strContainsChar n '_' = false) :
    executeToolCall w n a = toolExecutionFailed ("Invalid tool name format: " ++ n) := by
  unfold executeToolCall executeToolCallE
  simp [h]

theorem executeToolCall_unknownClient (w : McpWorld α) (n : String) (a : α)
    (h1 : strContainsChar n '_' = true) (h2 : matchClient n = none) :
    executeToolCall w n a =
      toolExecutionFailed ("Unknown MCP client for tool: " ++ n) := by
  unfold executeToolCall executeToolCallE
  simp [h1, h2]

theorem executeToolCall_initFail (w : McpWorld α) (n : String) (a : α)
    (ct : String × String) (h : matchClient n = some ct)
    (hw : w.initOk ct.1 = false) :
    executeToolCall w n a =
      toolExecutionFailed ("Failed to initialize " ++ ct.1 ++ " MCP client") := by
  unfold executeToolCall executeToolCallE
  simp [matchClient_contains n ct h, h, hw]

theorem executeToolCall_callError (w : McpWorld α) (n : String) (a : α)
    (ct : String × String) (m : String) (h : matchClient n = some ct)
    (hw : w.initOk ct.1 = true) (hc : w.callTool ct.1 ct.2 a = .error m) :
    executeToolCall w n a = toolExecutionFailed m := by
  unfold executeToolCall executeToolCallE
  simp [matchClient_contains n ct h, h, hw, hc]

theorem executeToolCall_callOk (w : McpWorld α) (n : String) (a : α)
    (ct : String × String) (s : String) (h : matchClient n = some ct)
    (hw : w.initOk ct.1 = true) (hc : w.callTool ct.1 ct.2 a = .ok s) :
    executeToolCall w n a = s := by
  unfold executeToolCall executeToolCallE
  simp [matchClient_contains n ct h, h, hw, hc]

theorem toolExecutionFailed_starts (m : String) :
    strStarts (toolExecutionFailed m) "Tool execution failed: " = true := by
  unfold toolExecutionFailed strStarts
  rw [strApp_data]
  exact listStarts_append_self _ _

/-- Failure is indistinguishable from a tool that returned the failure text:
    replacing a raising `call_tool` by one that returns the converted error
    string leaves `execute_tool_call` unchanged. -/
theorem executeToolCall_indis (w w' : McpWorld α)
    (hinit : ∀ c, w'.initOk c = w.initOk c)
    (hcall : ∀ c t a, w'.callTool c t a =
      match w.callTool c t a with
      | .error e => .ok (toolExecutionFailed e)
      | .ok s => .ok s)
    (n : String) (a : α) :
    executeToolCall w' n a = executeToolCall w n a := by
  unfold executeToolCall executeToolCallE
  by_cases h1 : strContainsChar n '_' = false
  · simp [h1]
  · simp only [h1, Bool.false_eq_true, if_false]
    cases h2 : matchClient n with
    | none => simp
    | some ct =>
      simp only
      rw [hinit ct.1]
      by_cases h3 : w.initOk ct.1
      · simp only [h3, if_true]
        rw [hcall ct.1 ct.2 a]
        cases h4 : w.callTool ct.1 ct.2 a with
        | error e => simp
        | ok s => simp
      · simp [h3]

/-! ### Remaining helpers -/

/-- Detection of any `tool_error` event. -/
def isToolErrorEv : Ev α → Bool
  | .toolError _ => true
  | _ => false

/-- Detection of an index-identifying (`incomplete`) `tool_error` event. -/
def isIncompleteToolErr : Ev α → Bool
  | .toolError (.incomplete _) => true
  | _ => false

theorem procChunk_acc (acc : AccList) (ch : Chunk) :
    (procChunk (α := α) acc ch).1 = List.foldl accStep acc (chunkToolCalls ch) := by
  unfold procChunk chunkToolCalls
  cases ch.choices with
  | nil => rfl
  | cons c rest =>
    by_cases h1 : c.delta.toolCalls = []
    · by_cases h2 : optTruthy c.delta.reasoning
      · simp [h1, h2]
      · by_cases h3 : optTruthy c.delta.content <;> simp [h1, h2, h3]
    · simp [h1]

theorem streamRound_acc (acc : AccList) (chunks : List Chunk) :
    (streamRound (α := α) acc chunks).1 =
      List.foldl accStep acc ((upToFinish chunks).map chunkToolCalls).flatten := by
  induction chunks generalizing acc with
  | nil => rfl
  | cons c cs ih =>
    have hfin := procChunk_fin (α := α) acc c
    unfold streamRound
    cases hf : chunkFin c with
    | some r =>
      rw [hf] at hfin
      simp only [hfin, upToFinish_cons_some c cs r hf, List.map_cons,
        List.map_nil, List.flatten_cons, List.flatten_nil, List.append_nil]
      exact procChunk_acc acc c
    | none =>
      rw [hf] at hfin
      simp only [hfin, upToFinish_cons_none c cs hf, List.map_cons,
        List.flatten_cons]
      rw [List.foldl_append]
      rw [ih, procChunk_acc]

theorem engineRun_fin_none (argParse : String → Option α)
    (exec : String → α → Except String String) (msgs : List Msg)
    (chunks : List Chunk) (rest : List RoundOutcome)
    (hf : (streamRound (α := α) ([] : AccList) chunks).2.2 = none) :
    engineRun argParse exec msgs (Except.ok chunks :: rest) =
      ((streamRound (α := α) ([] : AccList) chunks).2.1 ++ [Ev.done], msgs) := by
  unfold engineRun
  simp [hf]

theorem isToolFamilyEv_done : isToolFamilyEv (Ev.done : Ev α) = false := rfl

theorem count_done_of_no_terminal [DecidableEq α] (evs : List (Ev α))
    (h : (evs.all fun e => !isTerminalEv e) = true) : evs.count Ev.done = 0 := by
  rw [List.count_eq_zero]
  intro hmem
  have hx := List.all_eq_true.mp h _ hmem
  simp [isTerminalEv] at hx

/-! ## Concrete fixtures for witnesses and counterexamples -/

/-- Concrete argument parser: accepts exactly the two-character string of an
    empty JSON object. -/
def exParse : String → Option Nat := fun s => if s = "\x7b\x7d" then some 0 else none

/-- Chunk carrying one content fragment. -/
def exContentChunk (s : String) : Chunk := ⟨[⟨⟨[], none, some s⟩, none⟩]⟩

/-- Chunk carrying only a finish reason. -/
def exFinChunk : Chunk := ⟨[⟨⟨[], none, none⟩, some "stop"⟩]⟩

/-- Chunk carrying one complete tool-call delta. -/
def exToolChunk (i : Nat) (idf nf af : String) : Chunk :=
  ⟨[⟨⟨[⟨i, some idf, some nf, some af⟩], none, none⟩, none⟩]⟩

/-- Chunk carrying two complete tool-call deltas, index 1 first. -/
def exTwoToolChunk : Chunk :=
  ⟨[⟨⟨[⟨1, some "b", some "t1", some "\x7b\x7d"⟩,
       ⟨0, some "a", some "t0", some "\x7b\x7d"⟩], none, none⟩, none⟩]⟩

/-- Concrete capability that always succeeds. -/
def exExecOk : String → Nat → Except String String := fun n _ => .ok ("R:" ++ n)

/-- Concrete MCP world whose clients all initialize and succeed. -/
def exWorld : McpWorld Nat := ⟨fun _ => true, fun _ t _ => .ok ("ok:" ++ t)⟩

/-- Concrete frame parser for decoder witnesses. -/
def exJParse : List Char → Option Nat :=
  fun l => if l = ['7'] then some 7 else none

/-- Concrete frame parser into chunks for decoder-engine witnesses. -/
def exCParse : List Char → Option Chunk :=
  fun l => if l = ['7'] then some (exContentChunk "seven") else none

/-! ## Claim theorems -/

/-- C2: for every turn, the client-facing event stream terminates with
    exactly one terminal event — `done` when the turn completes, `error` on
    fatal (transport) failure, never both and never neither; a transport
    failure on the first round yields exactly the single `error` event; and a
    turn whose first round carries zero tool calls yields exactly one `done`
    event and zero `tool_*` events. -/
theorem c2_unique_terminal_event (α : Type) [DecidableEq α]
    (argParse : String → Option α) (exec : String → α → Except String String)
    (msgs : List Msg) (script : List RoundOutcome) (chunks : List Chunk)
    (rest : List RoundOutcome) :
    (∃ pre t, (engineRun argParse exec msgs script).1 = pre ++ [t] ∧
      isTerminalEv t = true ∧ (pre.all fun e => !isTerminalEv e) = true)
    ∧ ((∀ r ∈ script, ∃ cs, r = Except.ok cs) →
        ∃ pre, (engineRun argParse exec msgs script).1 = pre ++ [Ev.done] ∧
          (pre.all fun e => !isTerminalEv e) = true)
    ∧ (∀ m, (engineRun argParse exec msgs (Except.error m :: rest)).1 = [Ev.error m])
    ∧ ((∀ c ∈ chunks, chunkToolCalls c = []) →
        (engineRun argParse exec msgs (Except.ok chunks :: rest)).1.count Ev.done = 1
        ∧ ((engineRun argParse exec msgs (Except.ok chunks :: rest)).1.all
            fun e => !isToolFamilyEv e) = true) := by
  refine ⟨engineRun_shape argParse exec msgs script,
    engineRun_allOk_done argParse exec msgs script,
    fun m => rfl, fun h => ?_⟩
  rw [engineRun_noTC argParse exec msgs chunks rest h]
  constructor
  · rw [List.count_append]
    rw [count_done_of_no_terminal _ (streamRound_events_no_terminal ([] : AccList) chunks)]
    rfl
  · rw [List.all_append]
    have h1 := streamRound_events_noTC (α := α) ([] : AccList) chunks h
    simp [h1, isToolFamilyEv_done]

/-- Witness for C2 at a concrete one-round, zero-tool-call turn. -/
theorem c2_witness :
    ((engineRun exParse exExecOk []
        [Except.ok [exContentChunk "hi", exFinChunk]]).1.count Ev.done = 1)
    ∧ ((engineRun exParse exExecOk []
        [Except.ok [exContentChunk "hi", exFinChunk]]).1.all
          fun e => !isToolFamilyEv e) = true :=
  (c2_unique_terminal_event Nat exParse exExecOk []
    [Except.ok [exContentChunk "hi", exFinChunk]]
    [exContentChunk "hi", exFinChunk] []).2.2.2 (by decide)

/-- C3: the decoded frame sequence is a function of the concatenated upstream
    text alone — any split into transport reads decodes identically, so the
    engine's emitted events agree for any fragmentation; and over one round
    of single-concern (unmasked) chunks the concatenation of emitted content
    payloads equals the concatenation of the content fragments of the
    consumed chunks. -/
theorem c3_content_concat_boundary_free (J α : Type) (parse : List Char → Option J)
    (cparse : List Char → Option Chunk) (argParse : String → Option α)
    (exec : String → α → Except String String) (msgs : List Msg)
    (splits : List (List Char)) (acc : AccList) (chunks : List Chunk)
    (hun : ∀ c ∈ upToFinish chunks, unmaskedChunk c) :
    decodeAll parse splits = decodeAll parse [listJoin splits]
    ∧ engineRun argParse exec msgs [Except.ok (decodeAll cparse splits)] =
        engineRun argParse exec msgs [Except.ok (decodeAll cparse [listJoin splits])]
    ∧ joinStr (contentEvs (streamRound (α := α) acc chunks).2.1) =
        joinStr (contentFragments (upToFinish chunks)) := by
  refine ⟨decodeAll_eq_concat parse splits, ?_, streamRound_content acc chunks hun⟩
  rw [decodeAll_eq_concat cparse splits]

/-- Witness for C3: a frame split across two reads decodes as when read
    whole, and a concrete two-fragment round concatenates its content. -/
theorem c3_witness :
    decodeAll exJParse ["data: 7\nda".data, "ta: 7\n".data] =
      decodeAll exJParse [listJoin ["data: 7\nda".data, "ta: 7\n".data]]
    ∧ engineRun exParse exExecOk []
        [Except.ok (decodeAll exCParse ["data: 7\nda".data, "ta: 7\n".data])] =
      engineRun exParse exExecOk []
        [Except.ok (decodeAll exCParse [listJoin ["data: 7\nda".data, "ta: 7\n".data]])]
    ∧ joinStr (contentEvs (streamRound (α := Nat) ([] : AccList)
        [exContentChunk "Hello ", exContentChunk "world", exFinChunk]).2.1) =
      joinStr (contentFragments (upToFinish
        [exContentChunk "Hello ", exContentChunk "world", exFinChunk])) :=
  c3_content_concat_boundary_free Nat Nat exJParse exCParse exParse exExecOk []
    ["data: 7\nda".data, "ta: 7\n".data] ([] : AccList)
    [exContentChunk "Hello ", exContentChunk "world", exFinChunk] (by decide)

/-- C4: the accumulator entry at each index is the order-preserving
    concatenation of that index's id/name/arguments fragments; the round's
    final accumulator is exactly the accumulation of the arrival sequence of
    tool-call deltas of the consumed chunks; and while no finish signal has
    arrived, the engine's output is independent of both the argument parser
    and the tool capability (arguments are parsed only at round end). -/
theorem c4_fragment_accumulation (α : Type) (ds : List ToolCallDelta) (i : Nat)
    (argParse₁ argParse₂ : String → Option α)
    (exec₁ exec₂ : String → α → Except String String) (msgs : List Msg)
    (chunks : List Chunk) :
    (accFind (accumulate ds) i =
      if ds.any (fun d => d.index = i) then
        some ⟨fragsOf i (·.idFrag) ds, fragsOf i (·.nameFrag) ds,
          fragsOf i (·.argsFrag) ds⟩
      else none)
    ∧ (streamRound (α := α) ([] : AccList) chunks).1 =
        accumulate ((upToFinish chunks).map chunkToolCalls).flatten
    ∧ ((streamRound (α := α) ([] : AccList) chunks).2.2 = none →
        engineRun argParse₁ exec₁ msgs [Except.ok chunks] =
          engineRun argParse₂ exec₂ msgs [Except.ok chunks]) := by
  refine ⟨accumulate_find ds i, streamRound_acc ([] : AccList) chunks, fun hf => ?_⟩
  rw [engineRun_fin_none argParse₁ exec₁ msgs chunks [] hf,
    engineRun_fin_none argParse₂ exec₂ msgs chunks [] hf]

/-- Witness for C4: fragments of an interleaved two-index arrival sequence
    reassemble by concatenation, and a finish-free round is parser
    independent. -/
theorem c4_witness :
    (accFind (accumulate
        [⟨0, some "a", some "ta", some "\x7b"⟩, ⟨1, some "b", some "tb", some "\x7b\x7d"⟩,
         ⟨0, none, some "vily", some "\x7d"⟩]) 0 =
      if ([⟨0, some "a", some "ta", some "\x7b"⟩, ⟨1, some "b", some "tb", some "\x7b\x7d"⟩,
           ⟨0, none, some "vily", some "\x7d"⟩] : List ToolCallDelta).any
            (fun d => d.index = 0) then
        some ⟨fragsOf 0 (·.idFrag) [⟨0, some "a", some "ta", some "\x7b"⟩,
            ⟨1, some "b", some "tb", some "\x7b\x7d"⟩, ⟨0, none, some "vily", some "\x7d"⟩],
          fragsOf 0 (·.nameFrag) [⟨0, some "a", some "ta", some "\x7b"⟩,
            ⟨1, some "b", some "tb", some "\x7b\x7d"⟩, ⟨0, none, some "vily", some "\x7d"⟩],
          fragsOf 0 (·.argsFrag) [⟨0, some "a", some "ta", some "\x7b"⟩,
            ⟨1, some "b", some "tb", some "\x7b\x7d"⟩, ⟨0, none, some "vily", some "\x7d"⟩]⟩
      else none)
    ∧ (streamRound (α := Nat) ([] : AccList) [exToolChunk 0 "a" "ta" "\x7b\x7d"]).1 =
        accumulate ((upToFinish [exToolChunk 0 "a" "ta" "\x7b\x7d"]).map chunkToolCalls).flatten
    ∧ ((streamRound (α := Nat) ([] : AccList) [exToolChunk 0 "a" "ta" "\x7b\x7d"]).2.2 = none →
        engineRun exParse exExecOk [] [Except.ok [exToolChunk 0 "a" "ta" "\x7b\x7d"]] =
          engineRun (fun _ => (none : Option Nat)) (fun _ _ => .error "boom") []
            [Except.ok [exToolChunk 0 "a" "ta" "\x7b\x7d"]]) :=
  c4_fragment_accumulation Nat
    [⟨0, some "a", some "ta", some "\x7b"⟩, ⟨1, some "b", some "tb", some "\x7b\x7d"⟩,
     ⟨0, none, some "vily", some "\x7d"⟩] 0
    exParse (fun _ => none) exExecOk (fun _ _ => .error "boom") []
    [exToolChunk 0 "a" "ta" "\x7b\x7d"]

/-- C9: the frame decoder yields a parsed payload only for complete lines
    whose stripped text begins with `data: `; every other line (blank, event
    control, or otherwise) is skipped; `data: [DONE]` halts the stream
    without being yielded, leaving later lines unread; a data line whose JSON
    fails to parse is dropped while decoding continues in order; and a read
    containing no newline yields nothing (only complete lines are framed). -/
theorem c9_frame_classification (J : Type) (parse : List Char → Option J)
    (line : List Char) (ls : List (List Char)) (j : J) (c : List Char) :
    (procLine parse line = .yieldJ j →
      (stripWS line).take 6 = dataTag ∧ parse ((stripWS line).drop 6) = some j)
    ∧ ((stripWS line).take 6 ≠ dataTag → procLine parse line = .skip)
    ∧ ((stripWS line).take 6 = dataTag →
        stripWS ((stripWS line).drop 6) = doneTag →
        procLine parse line = .halt ∧ processLinesH parse (line :: ls) = (true, []))
    ∧ ((stripWS line).take 6 = dataTag →
        stripWS ((stripWS line).drop 6) ≠ doneTag →
        parse ((stripWS line).drop 6) = none →
        processLinesH parse (line :: ls) = processLinesH parse ls)
    ∧ ('\n' ∉ c → decodeAll parse [c] = []) := by
  refine ⟨?_, ?_, ?_, ?_, ?_⟩
  · intro h
    unfold procLine at h
    by_cases h1 : (stripWS line).take 6 = dataTag
    · refine ⟨h1, ?_⟩
      simp only [h1, if_true] at h
      by_cases h2 : stripWS ((stripWS line).drop 6) = doneTag
      · simp [h2] at h
      · simp only [h2, if_false] at h
        cases hp : parse ((stripWS line).drop 6) with
        | none => rw [hp] at h; cases h
        | some j' =>
          rw [hp] at h
          simp only at h
          cases h
          rfl
    · simp [h1] at h
  · intro h1
    unfold procLine
    simp [h1]
  · intro h1 h2
    have hp : procLine parse line = .halt := by
      unfold procLine
      simp [h1, h2]
    exact ⟨hp, by unfold processLinesH; rw [hp]⟩
  · intro h1 h2 h3
    have hp : procLine parse line = .skip := by
      unfold procLine
      simp [h1, h2, h3]
    conv_lhs => unfold processLinesH
    rw [hp]
  · intro hc
    unfold decodeAll feedAll feedChunk
    simp only [Bool.false_eq_true, if_false, List.nil_append]
    rw [extractLines_noNL c hc]
    rfl

/-- Witness for C9 at concrete lines: a valid data line, a control line, the
    sentinel, a malformed data line, and a newline-free read. -/
theorem c9_witness :
    ((stripWS "data: 7".data).take 6 = dataTag ∧
      exJParse ((stripWS "data: 7".data).drop 6) = some 7)
    ∧ procLine exJParse "event: ping".data = .skip
    ∧ (procLine exJParse "data: [DONE]".data = .halt ∧
        processLinesH exJParse ("data: [DONE]".data :: ["data: 7".data]) = (true, []))
    ∧ processLinesH exJParse ("data: oops".data :: ["data: 7".data]) =
        processLinesH exJParse ["data: 7".data]
    ∧ decodeAll exJParse ["data: 7".data] = [] :=
  ⟨(c9_frame_classification Nat exJParse "data: 7".data [] 7 []).1 (by decide),
    (c9_frame_classification Nat exJParse "event: ping".data [] 7 []).2.1 (by decide),
    (c9_frame_classification Nat exJParse "data: [DONE]".data ["data: 7".data] 7
      []).2.2.1 (by decide) (by decide),
    (c9_frame_classification Nat exJParse "data: oops".data ["data: 7".data] 7
      []).2.2.2.1 (by decide) (by decide) (by decide),
    (c9_frame_classification Nat exJParse [] [] 7 "data: 7".data).2.2.2.2
      (by decide)⟩

/-- C10: `ToolService.execute_tool_call` is total — every failure of the
    `try` body (name without underscore, unknown client, failed client
    initialization, or an exception out of `call_tool`) is caught and
    returned as an ordinary result string `Tool execution failed: ...`, and a
    failing tool is indistinguishable at the call site from a tool that
    returned that text. -/
theorem c10_execute_tool_call_total (α : Type) (w w' : McpWorld α) (n : String)
    (a : α) (ct : String × String) (m : String) :
    ((∃ e, executeToolCallE w n a = .error e ∧
        executeToolCall w n a = toolExecutionFailed e) ∨
      (∃ s, executeToolCallE w n a = .ok s ∧ executeToolCall w n a = s))
    ∧ (executeToolCallE w n a = .error m →
        strStarts (executeToolCall w n a) "Tool execution failed: " = true)
    ∧ (strContainsChar n '_' = false →
        executeToolCall w n a =
          toolExecutionFailed ("Invalid tool name format: " ++ n))
    ∧ (strContainsChar n '_' = true → matchClient n = none →
        executeToolCall w n a =
          toolExecutionFailed ("Unknown MCP client for tool: " ++ n))
    ∧ (matchClient n = some ct → w.initOk ct.1 = false →
        executeToolCall w n a =
          toolExecutionFailed ("Failed to initialize " ++ ct.1 ++ " MCP client"))
    ∧ (matchClient n = some ct → w.initOk ct.1 = true →
        w.callTool ct.1 ct.2 a = .error m →
        executeToolCall w n a = toolExecutionFailed m)
    ∧ ((∀ c, w'.initOk c = w.initOk c) →
        (∀ c t a', w'.callTool c t a' =
          match w.callTool c t a' with
          | .error e => .ok (toolExecutionFailed e)
          | .ok s => .ok s) →
        executeToolCall w' n a = executeToolCall w n a) := by
  refine ⟨executeToolCall_split w n a, ?_,
    executeToolCall_noUnderscore w n a,
    executeToolCall_unknownClient w n a,
    executeToolCall_initFail w n a ct,
    executeToolCall_callError w n a ct m,
    fun h1 h2 => executeToolCall_indis w w' h1 h2 n a⟩
  intro hm
  have : executeToolCall w n a = toolExecutionFailed m := by
    unfold executeToolCall
    rw [hm]
  rw [this]
  exact toolExecutionFailed_starts m

/-- Witness for C10 at a concrete world and failing tool names. -/
theorem c10_witness :
    (strContainsChar "nounderscore" '_' = false →
      executeToolCall exWorld "nounderscore" 0 =
        toolExecutionFailed ("Invalid tool name format: " ++ "nounderscore"))
    ∧ (strContainsChar "weird_tool" '_' = true → matchClient "weird_tool" = none →
        executeToolCall exWorld "weird_tool" 0 =
          toolExecutionFailed ("Unknown MCP client for tool: " ++ "weird_tool")) :=
  ⟨(c10_execute_tool_call_total Nat exWorld exWorld "nounderscore" 0
      ("supabase", "x") "m").2.2.1,
    (c10_execute_tool_call_total Nat exWorld exWorld "weird_tool" 0
      ("supabase", "x") "m").2.2.2.1⟩

/-- C1 counterexample: a concrete turn whose only tool call fails inside the
    capability (unknown MCP client).  The run emits no `tool_error` event at
    all — the failure surfaces as an ordinary `tool_result` carrying the
    error text — refuting the claim that the engine reports a capability
    failure as a `tool_error` event. -/
theorem c1_counterexample :
    (engineRun exParse (toolServiceExec exWorld) []
        [Except.ok [exToolChunk 0 "id0" "foo_bar" "\x7b\x7d", exFinChunk],
         Except.ok [exFinChunk]]).1 =
      [Ev.toolCallProgress 1, Ev.toolCall "foo_bar" 0,
       Ev.toolResult "foo_bar"
         "Tool execution failed: Unknown MCP client for tool: foo_bar",
       Ev.done]
    ∧ ((engineRun exParse (toolServiceExec exWorld) []
        [Except.ok [exToolChunk 0 "id0" "foo_bar" "\x7b\x7d", exFinChunk],
         Except.ok [exFinChunk]]).1.all fun e => !isToolErrorEv e) = true
    ∧ executeToolCallE exWorld "foo_bar" 0 =
        .error "Unknown MCP client for tool: foo_bar"
    ∧ (engineRun exParse (toolServiceExec exWorld) []
        [Except.ok [exToolChunk 0 "id0" "foo_bar" "\x7b\x7d", exFinChunk],
         Except.ok [exFinChunk]]).2 =
      [Msg.assistantToolCalls ⟨"id0", "foo_bar", "\x7b\x7d"⟩,
       Msg.toolResultMsg "id0"
         "Tool execution failed: Unknown MCP client for tool: foo_bar"] := by
  refine ⟨by decide, by decide, by rfl, by decide⟩

/-- C1 amended: a tool-capability failure never aborts the turn — the
    capability itself converts the failure into an error-text string, which
    the engine emits as an ordinary `tool_result` event and records as the
    tool's result message in the transcript; the engine's `tool_error`
    exception branch is unreachable under this capability; remaining calls
    are still executed; and only an upstream transport failure can keep the
    run from ending in `done`. -/
theorem c1_amended_failure_as_result (α : Type) (w : McpWorld α)
    (argParse : String → Option α) (i : Nat) (e : AccEntry) (a : α)
    (msgs : List Msg) (script : List RoundOutcome) (acc : AccList) :
    (e.name ≠ "" → e.args ≠ "" → argParse e.args = some a →
      execEntry argParse (toolServiceExec w) (i, e) =
        ([.toolCall e.name a, .toolResult e.name (executeToolCall w e.name a)],
         [.assistantToolCalls e, .toolResultMsg e.id (executeToolCall w e.name a)]))
    ∧ ((engineRun argParse (toolServiceExec w) msgs script).1.all
        fun ev => !isExecFailedEv ev) = true
    ∧ ((∀ r ∈ script, ∃ cs, r = Except.ok cs) →
        ∃ pre, (engineRun argParse (toolServiceExec w) msgs script).1 =
          pre ++ [Ev.done] ∧ (pre.all fun ev => !isTerminalEv ev) = true)
    ∧ (execRoundCalls argParse (toolServiceExec w) ((i, e) :: acc)).1 =
        (execEntry argParse (toolServiceExec w) (i, e)).1 ++
          (execRoundCalls argParse (toolServiceExec w) acc).1 := by
  refine ⟨fun hn ha hp => ?_,
    engineRun_no_execFailed argParse (toolServiceExec w)
      (fun n x => ⟨executeToolCall w n x, rfl⟩) msgs script,
    engineRun_allOk_done argParse (toolServiceExec w) msgs script,
    by rw [execRoundCalls_cons]⟩
  exact execEntry_ok argParse (toolServiceExec w) (i, e) a
    (executeToolCall w e.name a) hn ha hp rfl

/-- Witness for C1 amended at a concrete failing call. -/
theorem c1_witness :
    execEntry exParse (toolServiceExec exWorld) (0, ⟨"id0", "foo_bar", "\x7b\x7d"⟩) =
      ([.toolCall "foo_bar" 0,
        .toolResult "foo_bar" (executeToolCall exWorld "foo_bar" 0)],
       [.assistantToolCalls ⟨"id0", "foo_bar", "\x7b\x7d"⟩,
        .toolResultMsg "id0" (executeToolCall exWorld "foo_bar" 0)]) :=
  (c1_amended_failure_as_result Nat exWorld exParse 0 ⟨"id0", "foo_bar", "\x7b\x7d"⟩ 0
    [] [] []).1 (by decide) (by decide) (by decide)

/-- C5 counterexample: both calls of one round are complete and succeed, but
    the fragments for index 1 arrive before those for index 0, so the
    `tool_call`/`tool_result` pair of index 1 is emitted first — execution
    follows dict insertion order, not ascending index order. -/
theorem c5_counterexample :
    (engineRun exParse exExecOk []
        [Except.ok [exTwoToolChunk, exFinChunk], Except.ok [exFinChunk]]).1 =
      [Ev.toolCallProgress 2, Ev.toolCall "t1" 0, Ev.toolResult "t1" "R:t1",
       Ev.toolCall "t0" 0, Ev.toolResult "t0" "R:t0", Ev.done]
    ∧ List.indexOf (Ev.toolCall "t1" 0)
        (engineRun exParse exExecOk []
          [Except.ok [exTwoToolChunk, exFinChunk], Except.ok [exFinChunk]]).1 <
      List.indexOf (Ev.toolCall "t0" 0)
        (engineRun exParse exExecOk []
          [Except.ok [exTwoToolChunk, exFinChunk], Except.ok [exFinChunk]]).1 := by
  refine ⟨by decide, by decide⟩

/-- C5 amended: the round executor runs the accumulated calls sequentially in
    accumulator (dict insertion) order; the accumulator's key order is the
    first-appearance order of the indices; hence when index 0 is first seen
    before index 1 (in particular when fragments arrive in ascending index
    order) and both calls succeed, the pair for index 0 is emitted before the
    pair for index 1. -/
theorem c5_amended_insertion_order (α : Type) (argParse : String → Option α)
    (exec : String → α → Except String String) (acc1 acc2 : AccList)
    (ds : List ToolCallDelta) (e0 e1 : AccEntry) (a0 a1 : α) (r0 r1 : String) :
    execRoundCalls argParse exec (acc1 ++ acc2) =
      ((execRoundCalls argParse exec acc1).1 ++ (execRoundCalls argParse exec acc2).1,
        (execRoundCalls argParse exec acc1).2 ++ (execRoundCalls argParse exec acc2).2)
    ∧ accKeys (accumulate ds) = firstOcc (ds.map (·.index))
    ∧ (accumulate ds = [(0, e0), (1, e1)] →
        e0.name ≠ "" → e0.args ≠ "" → argParse e0.args = some a0 →
        exec e0.name a0 = .ok r0 →
        e1.name ≠ "" → e1.args ≠ "" → argParse e1.args = some a1 →
        exec e1.name a1 = .ok r1 →
        (execRoundCalls argParse exec (accumulate ds)).1 =
          [.toolCall e0.name a0, .toolResult e0.name r0,
           .toolCall e1.name a1, .toolResult e1.name r1]) := by
  refine ⟨execRoundCalls_append argParse exec acc1 acc2,
    accKeys_accumulate ds, ?_⟩
  intro hacc hn0 ha0 hp0 he0 hn1 ha1 hp1 he1
  rw [hacc, execRoundCalls_cons, execRoundCalls_cons]
  rw [execEntry_ok argParse exec (0, e0) a0 r0 hn0 ha0 hp0 he0]
  rw [execEntry_ok argParse exec (1, e1) a1 r1 hn1 ha1 hp1 he1]
  rfl

/-- Witness for C5 amended: ascending arrival of indices 0 then 1 yields the
    pairs in index order. -/
theorem c5_witness :
    (execRoundCalls exParse exExecOk (accumulate
        [⟨0, some "a", some "t0", some "\x7b\x7d"⟩, ⟨1, some "b", some "t1", some "\x7b\x7d"⟩])).1 =
      [.toolCall "t0" 0, .toolResult "t0" "R:t0",
       .toolCall "t1" 0, .toolResult "t1" "R:t1"] :=
  (c5_amended_insertion_order Nat exParse exExecOk [] []
    [⟨0, some "a", some "t0", some "\x7b\x7d"⟩, ⟨1, some "b", some "t1", some "\x7b\x7d"⟩]
    ⟨"a", "t0", "\x7b\x7d"⟩ ⟨"b", "t1", "\x7b\x7d"⟩ 0 0 "R:t0" "R:t1").2.2
    (by decide) (by decide) (by decide) (by decide) (by rfl)
    (by decide) (by decide) (by decide) (by rfl)

/-- C6 counterexample: a round ends with an entry whose arguments fail to
    parse as JSON; a `tool_error` is emitted, but its payload carries the raw
    arguments string and no index — no index-identifying `tool_error` occurs
    anywhere in the run — refuting the claim that the event identifies the
    entry's index. -/
theorem c6_counterexample :
    (engineRun exParse exExecOk []
        [Except.ok [exToolChunk 0 "id0" "tavily_x" "\x7bbad", exFinChunk],
         Except.ok [exFinChunk]]).1 =
      [Ev.toolCallProgress 1, Ev.toolError (.badJson "\x7bbad"), Ev.done]
    ∧ Ev.toolError (.badJson "\x7bbad") ∈
        (engineRun exParse exExecOk []
          [Except.ok [exToolChunk 0 "id0" "tavily_x" "\x7bbad", exFinChunk],
           Except.ok [exFinChunk]]).1
    ∧ ((engineRun exParse exExecOk []
        [Except.ok [exToolChunk 0 "id0" "tavily_x" "\x7bbad", exFinChunk],
         Except.ok [exFinChunk]]).1.all fun e => !isIncompleteToolErr e) = true
    ∧ exParse "\x7bbad" = none := by
  refine ⟨by decide, by decide, by decide, by decide⟩

/-- C6 amended: a malformed accumulator entry is never silently dropped and
    never fatal — an entry with an empty name or empty arguments yields a
    `tool_error` identifying its index, and an entry whose arguments fail to
    parse yields a `tool_error` carrying the offending arguments string
    (without the index); the executor's output for the other entries is
    unaffected and contains no terminal event. -/
theorem c6_amended_malformed_entries (α : Type) (argParse : String → Option α)
    (exec : String → α → Except String String) (acc acc1 acc2 : AccList)
    (i : Nat) (e : AccEntry) :
    ((i, e) ∈ acc → e.name = "" ∨ e.args = "" →
      Ev.toolError (.incomplete i) ∈ (execRoundCalls argParse exec acc).1)
    ∧ ((i, e) ∈ acc → e.name ≠ "" → e.args ≠ "" → argParse e.args = none →
        Ev.toolError (.badJson e.args) ∈ (execRoundCalls argParse exec acc).1)
    ∧ ((execRoundCalls argParse exec acc).1.all fun ev => !isTerminalEv ev) = true
    ∧ (execRoundCalls argParse exec (acc1 ++ acc2)).1 =
        (execRoundCalls argParse exec acc1).1 ++ (execRoundCalls argParse exec acc2).1 := by
  refine ⟨fun hm hmal => ?_, fun hm hn ha hp => ?_,
    execRoundCalls_events_no_terminal argParse exec acc,
    by rw [execRoundCalls_append]⟩
  · refine execRoundCalls_mem_events argParse exec acc (i, e) hm _ ?_
    rw [execEntry_incomplete argParse exec (i, e) hmal]
    exact List.mem_singleton.mpr rfl
  · refine execRoundCalls_mem_events argParse exec acc (i, e) hm _ ?_
    rw [execEntry_badJson argParse exec (i, e) hn ha hp]
    exact List.mem_singleton.mpr rfl

/-- Witness for C6 amended at a concrete round with one incomplete and one
    unparseable entry. -/
theorem c6_witness :
    Ev.toolError (.incomplete 0) ∈
      (execRoundCalls exParse exExecOk
        [(0, ⟨"a", "t0", ""⟩), (1, ⟨"b", "t1", "\x7bbad"⟩)]).1
    ∧ Ev.toolError (.badJson "\x7bbad") ∈
      (execRoundCalls exParse exExecOk
        [(0, ⟨"a", "t0", ""⟩), (1, ⟨"b", "t1", "\x7bbad"⟩)]).1 :=
  ⟨(c6_amended_malformed_entries Nat exParse exExecOk
      [(0, ⟨"a", "t0", ""⟩), (1, ⟨"b", "t1", "\x7bbad"⟩)] [] [] 0 ⟨"a", "t0", ""⟩).1
      (by decide) (by decide),
    (c6_amended_malformed_entries Nat exParse exExecOk
      [(0, ⟨"a", "t0", ""⟩), (1, ⟨"b", "t1", "\x7bbad"⟩)] [] [] 1 ⟨"b", "t1", "\x7bbad"⟩).2.1
      (by decide) (by decide) (by decide) (by decide)⟩

/-- C7 counterexample: a delta carrying both a reasoning fragment and a
    content fragment produces only the reasoning event — the content
    fragment, though truthy, is dropped by the `elif` chain — refuting the
    claim that all present fields of a delta are processed. -/
theorem c7_counterexample :
    procChunk (α := Nat) ([] : AccList) ⟨[⟨⟨[], some "r", some "c"⟩, none⟩]⟩ =
      (([] : AccList), [Ev.reasoning "r"], none)
    ∧ contentEvs (procChunk (α := Nat) ([] : AccList)
        ⟨[⟨⟨[], some "r", some "c"⟩, none⟩]⟩).2.1 = []
    ∧ optTruthy (chunkContent ⟨[⟨⟨[], some "r", some "c"⟩, none⟩]⟩) = true := by
  refine ⟨by decide, by decide, by decide⟩

/-- C7 amended: the finish reason of a chunk is processed independently of
    the delta's fragment fields, but among `tool_calls`, `reasoning` and
    `content` only the highest-priority truthy field of one delta is
    processed (`tool_calls` over `reasoning` over `content`); the
    lower-priority fields of the same delta are dropped. -/
theorem c7_amended_elif_priority (α : Type) (acc : AccList) (ch : Chunk)
    (c : Choice) (rest : List Choice) (hc : ch.choices = c :: rest) :
    (procChunk (α := α) acc ch).2.2 = chunkFin ch
    ∧ (c.delta.toolCalls ≠ [] →
        (procChunk (α := α) acc ch).2.1 =
          [.toolCallProgress (List.foldl accStep acc c.delta.toolCalls).length])
    ∧ (c.delta.toolCalls = [] → optTruthy c.delta.reasoning = true →
        (procChunk (α := α) acc ch).2.1 = [.reasoning (c.delta.reasoning.getD "")])
    ∧ (c.delta.toolCalls = [] → optTruthy c.delta.reasoning = false →
        optTruthy c.delta.content = true →
        (procChunk (α := α) acc ch).2.1 = [.content (c.delta.content.getD "")])
    ∧ (c.delta.toolCalls = [] → optTruthy c.delta.reasoning = false →
        optTruthy c.delta.content = false →
        (procChunk (α := α) acc ch).2.1 = []) := by
  refine ⟨procChunk_fin acc ch, fun h1 => ?_, fun h1 h2 => ?_,
    fun h1 h2 h3 => ?_, fun h1 h2 h3 => ?_⟩ <;>
    (unfold procChunk; rw [hc]; simp [h1]) <;> simp [*]

/-- Witness for C7 amended at a concrete reasoning-plus-content delta with a
    finish reason. -/
theorem c7_witness :
    (procChunk (α := Nat) ([] : AccList)
        ⟨[⟨⟨[], some "r", some "c"⟩, some "stop"⟩]⟩).2.2 =
      chunkFin ⟨[⟨⟨[], some "r", some "c"⟩, some "stop"⟩]⟩
    ∧ (procChunk (α := Nat) ([] : AccList)
        ⟨[⟨⟨[], some "r", some "c"⟩, some "stop"⟩]⟩).2.1 = [.reasoning "r"] :=
  ⟨(c7_amended_elif_priority Nat ([] : AccList)
      ⟨[⟨⟨[], some "r", some "c"⟩, some "stop"⟩]⟩
      ⟨⟨[], some "r", some "c"⟩, some "stop"⟩ [] rfl).1,
    (c7_amended_elif_priority Nat ([] : AccList)
      ⟨[⟨⟨[], some "r", some "c"⟩, some "stop"⟩]⟩
      ⟨⟨[], some "r", some "c"⟩, some "stop"⟩ [] rfl).2.2.1 (by decide) (by decide)⟩

/-- C8 counterexample: status 422 is outside the claim's enumerated codes yet
    does not produce the generic error — it has its own typed message —
    refuting the claim's "otherwise a generic error". -/
theorem c8_counterexample :
    statusFailureMessage 422 "m" "d" ≠ genericStreamError 422 "d"
    ∧ statusFailureMessage 422 "m" "d" ≠ statusFailureMessage 401 "m" "d"
    ∧ statusFailureMessage 422 "m" "d" ≠ statusFailureMessage 402 "m" "d"
    ∧ statusFailureMessage 422 "m" "d" ≠ statusFailureMessage 404 "m" "d"
    ∧ statusFailureMessage 422 "m" "d" ≠ statusFailureMessage 429 "m" "d" := by
  refine ⟨by decide, by decide, by decide, by decide, by decide⟩

/-- C8 amended: a non-2xx upstream status maps to a typed failure message —
    401 invalid credential, 402 insufficient balance or payment required
    (depending on the error detail), 429 rate limited, 404 unknown model,
    422 invalid request, any other status the generic error; and a 429
    raised before any frame is read produces exactly the single
    rate-limiting `error` event and no `done`. -/
theorem c8_amended_status_mapping (α : Type) (status : Nat)
    (model detail : String) (argParse : String → Option α)
    (exec : String → α → Except String String) (msgs : List Msg)
    (rest : List RoundOutcome) :
    (status ≠ 401 → status ≠ 402 → status ≠ 404 → status ≠ 422 → status ≠ 429 →
      statusFailureMessage status model detail = genericStreamError status detail)
    ∧ statusFailureMessage 401 model detail =
        "Invalid API key. Please check your OpenRouter API key and try again."
    ∧ (strHasSub (lowerStr detail) "credits" = true →
        statusFailureMessage 402 model detail =
          "Insufficient credits for this model. Please add credits to your OpenRouter account.")
    ∧ (strHasSub (lowerStr detail) "credits" = false →
        statusFailureMessage 402 model detail =
          "Payment required. Please check your OpenRouter account balance.")
    ∧ statusFailureMessage 429 model detail =
        "Rate limit exceeded. Please try again in a few minutes."
    ∧ statusFailureMessage 404 model detail =
        "Model '" ++ model ++ "' is not available. Please try a different model."
    ∧ statusFailureMessage 422 model detail =
        "Invalid request for model '" ++ model ++ "'. Please check your input and try again."
    ∧ engineRun argParse exec msgs
        (Except.error (statusFailureMessage 429 model detail) :: rest) =
      ([Ev.error "Rate limit exceeded. Please try again in a few minutes."], msgs) := by
  refine ⟨fun h1 h2 h3 h4 h5 => ?_, rfl, fun h => ?_, fun h => ?_, rfl, rfl, rfl, rfl⟩
  · unfold statusFailureMessage
    simp [h1, h2, h3, h4, h5]
  · unfold statusFailureMessage
    simp [h]
  · unfold statusFailureMessage
    simp [h]

/-- Witness for C8 amended: status 500 is mapped to the generic message, and
    a credits-bearing 402 detail selects the insufficient-credits message. -/
theorem c8_witness :
    statusFailureMessage 500 "m" "boom" = genericStreamError 500 "boom"
    ∧ statusFailureMessage 402 "m" "No CREDITS left" =
        "Insufficient credits for this model. Please add credits to your OpenRouter account." :=
  ⟨(c8_amended_status_mapping Nat 500 "m" "boom" exParse exExecOk [] []).1
      (by decide) (by decide) (by decide) (by decide) (by decide),
    (c8_amended_status_mapping Nat 402 "m" "No CREDITS left" exParse exExecOk []
      []).2.2.1 (by decide)⟩
